import Mathlib

/-!
Formal model of the boggle-solver pipeline and proofs about its
specification claims.

The development shallowly embeds the Python sources:

* `app/solver.py`    - trie, DFS word search with bitmask visited tracking
* `app/recognition.py` - OCR text cleaning, template matching with
  structural verification, the multi-pass cell recognizer
* `app/board_detect.py` - corner canonicalization and grid-size inference

Python strings are modelled on their character lists (ASCII range, which
is the range exercised by the program: letter tokens, OCR alphabet).
Python floats are modelled as rationals; the float comparisons in the
sources compare exact stored values, which the rational model preserves.
External image-processing and OCR capabilities (cv2, easyocr) are passed
in as oracle parameters; everything computed by the repository's own code
is embedded directly.

Rational arithmetic helpers (`qAdd`, `qSub`, `qDiv`) are used inside the
embedded code instead of the `Rat` field operations so that results
kernel-evaluate on concrete inputs; each is proved equal to the
corresponding field operation.
-/

/-! ## Python string primitives (ASCII semantics) -/

/-- Python `str.upper` on one ASCII character. -/
def pyUpperChar (c : Char) : Char :=
  if 'a' ≤ c ∧ c ≤ 'z' then Char.ofNat (c.toNat - 32) else c

/-- Python `str.upper` (ASCII range). -/
def pyUpper (s : String) : String :=
  String.mk (s.data.map pyUpperChar)

/-- Python default whitespace for `str.strip`. -/
def pyIsSpace (c : Char) : Bool :=
  c = ' ' ∨ c = '\t' ∨ c = '\n' ∨ c = '\r' ∨ c = '\x0b' ∨ c = '\x0c'

/-- Python `str.strip()` with default whitespace. -/
def pyStrip (s : String) : String :=
  String.mk (((s.data.dropWhile pyIsSpace).reverse.dropWhile pyIsSpace).reverse)

/-- Python `str.isalpha` restricted to the ASCII range exercised by the program. -/
def pyIsAlpha (c : Char) : Bool :=
  ('A' ≤ c ∧ c ≤ 'Z') ∨ ('a' ≤ c ∧ c ≤ 'z')

/-- Strict lexicographic comparison of character lists by code point,
Python's `<` on strings. -/
def charListLt : List Char → List Char → Bool
  | _, [] => false
  | [], _ :: _ => true
  | a :: as, b :: bs => if a < b then true else if a = b then charListLt as bs else false

/-- Python `<=` on strings. -/
def pyStrLE (a b : String) : Bool := !(charListLt b.data a.data)

/-! ## Exact rational arithmetic that kernel-evaluates -/

/-- Rational addition via `mkRat` (kernel-evaluable; equal to `+`). -/
def qAdd (a b : ℚ) : ℚ := mkRat (a.num * b.den + b.num * a.den) (a.den * b.den)

/-- Rational subtraction via `mkRat` (kernel-evaluable; equal to `-`). -/
def qSub (a b : ℚ) : ℚ := mkRat (a.num * b.den - b.num * a.den) (a.den * b.den)

/-- Rational division via `mkRat` (kernel-evaluable; equal to `/`). -/
def qDiv (a b : ℚ) : ℚ := mkRat (a.num * b.den * b.num.sign) (a.den * b.num.natAbs)

theorem ratNum_eq_mul_den (a : ℚ) : (a.num : ℚ) = a * a.den := by
  have ha : (a.den : ℚ) ≠ 0 := Nat.cast_ne_zero.mpr a.den_nz
  exact (div_eq_iff ha).mp (Rat.num_div_den a)

theorem qAdd_eq (a b : ℚ) : qAdd a b = a + b := by
  have ha : (a.den : ℚ) ≠ 0 := Nat.cast_ne_zero.mpr a.den_nz
  have hb : (b.den : ℚ) ≠ 0 := Nat.cast_ne_zero.mpr b.den_nz
  rw [qAdd, Rat.mkRat_eq_div]
  push_cast
  rw [div_eq_iff (by positivity), ratNum_eq_mul_den a, ratNum_eq_mul_den b]
  ring

theorem qSub_eq (a b : ℚ) : qSub a b = a - b := by
  have ha : (a.den : ℚ) ≠ 0 := Nat.cast_ne_zero.mpr a.den_nz
  have hb : (b.den : ℚ) ≠ 0 := Nat.cast_ne_zero.mpr b.den_nz
  rw [qSub, Rat.mkRat_eq_div]
  push_cast
  rw [div_eq_iff (by positivity), ratNum_eq_mul_den a, ratNum_eq_mul_den b]
  ring

theorem qDiv_eq (a b : ℚ) : qDiv a b = a / b := by
  rcases eq_or_ne b 0 with hb0 | hb0
  · subst hb0
    simp [qDiv, Rat.mkRat_eq_div]
  · have hbnum : b.num ≠ 0 := Rat.num_ne_zero.mpr hb0
    have ha : (a.den : ℚ) ≠ 0 := Nat.cast_ne_zero.mpr a.den_nz
    have hb : (b.den : ℚ) ≠ 0 := Nat.cast_ne_zero.mpr b.den_nz
    have hbn : (b.num : ℚ) ≠ 0 := Int.cast_ne_zero.mpr hbnum
    have habs : (b.num.sign : ℚ) * (b.num.natAbs : ℚ) = (b.num : ℚ) := by
      rw [← Int.cast_natCast, ← Int.cast_mul, Int.sign_mul_natAbs]
    have hsgn : b.num.sign = 1 ∨ b.num.sign = -1 := by
      rcases lt_trichotomy b.num 0 with h | h | h
      · exact Or.inr (Int.sign_eq_neg_one_iff_neg.mpr h)
      · exact absurd h hbnum
      · exact Or.inl (Int.sign_eq_one_iff_pos.mpr h)
    have hs2 : (b.num.sign : ℚ) * (b.num.sign : ℚ) = 1 := by
      rcases hsgn with h | h <;> rw [h] <;> norm_num
    have habs' : (b.num.natAbs : ℚ) ≠ 0 := by
      intro h
      apply hbn
      rw [← habs, h, mul_zero]
    have hnatAbs : (b.num.natAbs : ℚ) = (b.num.sign : ℚ) * (b * b.den) := by
      calc (b.num.natAbs : ℚ)
          = ((b.num.sign : ℚ) * (b.num.sign : ℚ)) * (b.num.natAbs : ℚ) := by rw [hs2]; ring
        _ = (b.num.sign : ℚ) * (b.num : ℚ) := by rw [mul_assoc, habs]
        _ = (b.num.sign : ℚ) * (b * b.den) := by rw [ratNum_eq_mul_den b]
    rw [qDiv, Rat.mkRat_eq_div]
    push_cast
    rw [div_eq_div_iff (mul_ne_zero ha habs') hb0, ratNum_eq_mul_den a, hnatAbs]
    ring

/-- Python `int()` truncation toward zero on a rational. -/
def pyInt (q : ℚ) : Int := q.num.tdiv q.den

/-! ## Trie (`app/solver.py`, `TrieNode` / `Trie`) -/

/-- A trie node: a letter-keyed association list of children plus a word marker,
mirroring `TrieNode.children` and `TrieNode.is_word`. -/
inductive TrieNode : Type where
  | mk (children : List (Char × TrieNode)) (is_word : Bool) : TrieNode

/-- The children association list of a node. -/
def TrieNode.children : TrieNode → List (Char × TrieNode)
  | .mk cs _ => cs

/-- The word marker of a node. -/
def TrieNode.wordHere : TrieNode → Bool
  | .mk _ w => w

/-- Dictionary lookup of one child edge (`node.children[ch]`). -/
def TrieNode.child (t : TrieNode) (c : Char) : Option TrieNode :=
  (t.children.find? (fun p => p.1 = c)).map (·.2)

/-- Walking a list of characters edge by edge, `none` when an edge is missing. -/
def TrieNode.walk : TrieNode → List Char → Option TrieNode
  | t, [] => some t
  | t, c :: cs =>
    match t.child c with
    | none => none
    | some t' => t'.walk cs

/-- A word is stored in the trie if walking it lands on a node marked `is_word`. -/
def TrieNode.containsWord (t : TrieNode) (w : String) : Bool :=
  match t.walk w.data with
  | none => false
  | some t' => t'.wordHere

/-- `Trie.insert` of `app/solver.py`, walking and extending the child edges. -/
def TrieNode.insertW : TrieNode → List Char → TrieNode
  | .mk cs _, [] => .mk cs true
  | .mk cs w, c :: rest =>
    match cs.find? (fun p => p.1 = c) with
    | some _ => .mk (cs.map (fun p => if p.1 = c then (p.1, p.2.insertW rest) else p)) w
    | none => .mk (cs ++ [(c, TrieNode.insertW (.mk [] false) rest)]) w

/-- The trie wrapper of `app/solver.py`. -/
structure Trie where
  root : TrieNode

/-- Insert a word into the trie. -/
def Trie.insert (t : Trie) (word : String) : Trie :=
  ⟨t.root.insertW word.data⟩

/-- Build a trie from a word list, upper-casing entries as `load_trie` and the
test helper `_make_trie` do. -/
def trieOfWords (ws : List String) : Trie :=
  ws.foldl (fun t w => t.insert (pyUpper w)) ⟨.mk [] false⟩

/-! ## The solver (`app/solver.py`, `solve`) -/

/-- The flattened, upper-cased cell list built by the loop
`for r ...: for c ...: cell_chars.append(board[r][c].upper())`. -/
def cellChars (board : List (List String)) (grid_size : Nat) : List String :=
  (List.range (grid_size * grid_size)).map
    (fun idx => pyUpper ((board.getD (idx / grid_size) []).getD (idx % grid_size) ""))

/-- The precomputed 8-direction adjacency list of cell `idx`. -/
def neighbors (grid_size idx : Nat) : List Nat :=
  ([-1, 0, 1] : List Int).flatMap (fun dr =>
    ([-1, 0, 1] : List Int).filterMap (fun dc =>
      if dr = 0 ∧ dc = 0 then none
      else
        let nr : Int := (idx / grid_size : Nat) + dr
        let nc : Int := (idx % grid_size : Nat) + dc
        if 0 ≤ nr ∧ nr < grid_size ∧ 0 ≤ nc ∧ nc < grid_size then
          some ((nr * grid_size + nc).toNat)
        else none))

/-- The recursive DFS of `solve`, returning the `(word, start_idx)` records in
the order the Python code would add them to `found` / `word_starts`.
The mutable `found` set, `word_starts` dict and `path` list are modelled by
returning the records and passing the path down.  `fuel` bounds the recursion
depth; every recursive call sets a fresh visited bit, so
`fuel = grid_size * grid_size` is enough (proved in the lemmas below). -/
def dfs (cells : List String) (grid_size : Nat) :
    Nat → Nat → TrieNode → List String → Nat → Nat → List (String × Nat)
  | 0, _, _, _, _, _ => []
  | fuel + 1, idx, node, path, visited, start_idx =>
    let chars := cells.getD idx ""
    if chars = "?" then []
    else
      match node.walk chars.data with
      | none => []
      | some current =>
        let path' := path ++ [chars]
        (if current.wordHere then [(String.join path', start_idx)] else []) ++
        (if !current.children.isEmpty then
          (neighbors grid_size idx).flatMap (fun nidx =>
            if visited &&& (1 <<< nidx) ≠ 0 then []
            else dfs cells grid_size fuel nidx current path' (visited ||| (1 <<< nidx)) start_idx)
        else [])

/-- All records of the whole search (`for start in range(total_cells): dfs(...)`). -/
def solveRecords (board : List (List String)) (grid_size : Nat) (trie : Trie) :
    List (String × Nat) :=
  let cells := cellChars board grid_size
  (List.range (grid_size * grid_size)).flatMap
    (fun start => dfs cells grid_size (grid_size * grid_size) start trie.root [] (1 <<< start) start)

/-- The iterated `word_starts` dict update
`if word not in word_starts or (sr, sc) < word_starts[word]: ...`,
where `<` is Python's lexicographic tuple comparison. -/
def pairLtB (p q : Nat × Nat) : Bool :=
  p.1 < q.1 ∨ (p.1 = q.1 ∧ p.2 < q.2)

/-- The final `word_starts` dictionary as a lookup function. -/
def wordStarts (grid_size : Nat) (records : List (String × Nat)) :
    String → Option (Nat × Nat) :=
  records.foldl
    (fun d rec1 =>
      let p := (rec1.2 / grid_size, rec1.2 % grid_size)
      fun w => if w = rec1.1 then
          match d rec1.1 with
          | none => some p
          | some q => some (if pairLtB p q then p else q)
        else d w)
    (fun _ => none)

/-- The sort key comparison of `sorted(found, key=lambda w: (-len(w), w))`:
descending length, then ascending lexicographic. -/
def wordLE (a b : String) : Bool :=
  b.length < a.length || (a.length == b.length && pyStrLE a b)

/-- `solve` of `app/solver.py`: the sorted (optionally truncated) word list and
the per-word topmost-leftmost start positions. -/
def solve (board : List (List String)) (grid_size : Nat) (trie : Trie)
    (max_results : Int) : List String × (String → Option (Nat × Nat)) :=
  let records := solveRecords board grid_size trie
  let found := (records.map Prod.fst).dedup
  let result := found.mergeSort wordLE
  (if max_results > 0 then result.take max_results.toNat else result,
   wordStarts grid_size records)

/-! ## Corner canonicalization (`app/board_detect.py`, `_order_corners`) -/

/-- `np.argmin`: index of the first occurrence of the minimum. -/
def argminAux : List ℚ → Nat → Nat → ℚ → Nat
  | [], _, bi, _ => bi
  | y :: ys, i, bi, bv => if y < bv then argminAux ys (i + 1) i y else argminAux ys (i + 1) bi bv

/-- `np.argmax`: index of the first occurrence of the maximum. -/
def argmaxAux : List ℚ → Nat → Nat → ℚ → Nat
  | [], _, bi, _ => bi
  | y :: ys, i, bi, bv => if bv < y then argmaxAux ys (i + 1) i y else argmaxAux ys (i + 1) bi bv

def pyArgmin (l : List ℚ) : Nat :=
  match l with
  | [] => 0
  | x :: xs => argminAux xs 1 0 x

def pyArgmax (l : List ℚ) : Nat :=
  match l with
  | [] => 0
  | x :: xs => argmaxAux xs 1 0 x

/-- `_order_corners`: order points as top-left, top-right, bottom-right,
bottom-left by the extrema of `s = x + y` and of `d = np.diff(pts, axis=1)`,
which for rows `[x, y]` is `y - x`. -/
def order_corners (pts : List (ℚ × ℚ)) : List (ℚ × ℚ) :=
  let s := pts.map (fun p => qAdd p.1 p.2)
  let d := pts.map (fun p => qSub p.2 p.1)
  [pts.getD (pyArgmin s) (0, 0),
   pts.getD (pyArgmin d) (0, 0),
   pts.getD (pyArgmax s) (0, 0),
   pts.getD (pyArgmax d) (0, 0)]

/-! ## Grid-size inference (`app/board_detect.py`, `infer_grid_size`) -/

/-- Python `min(iterable, key=...)`: the first element with strictly smallest key. -/
def pyMinBy (key : Nat → Nat) : List Nat → Option Nat
  | [] => none
  | x :: xs => some (xs.foldl (fun best y => if key y < key best then y else best) x)

/-- The count-to-grid-size mapping at the end of `infer_grid_size`
(`candidates = \x7b16: 4, 25: 5, 36: 6\x7d`, nearest key by absolute distance);
the cv2 blob census producing `cell_count` is external. -/
def infer_grid_size (cell_count : Nat) : Nat :=
  let candidates : List (Nat × Nat) := [(16, 4), (25, 5), (36, 6)]
  let best_n := (pyMinBy (fun n => ((n : Int) - (cell_count : Int)).natAbs)
    (candidates.map (·.1))).getD 16
  ((candidates.find? (fun p => p.1 = best_n)).map (·.2)).getD 0

/-! ## OCR text cleaning (`app/recognition.py`, `_clean_ocr_text`) -/

/-- `CONFUSION_MAP` of `app/recognition.py` (the sixth key is the left curly
bracket, code point 123). -/
def CONFUSION_MAP : List (Char × Char) :=
  [('0', 'O'), ('1', 'I'), ('5', 'S'), ('|', 'I'), ('!', 'I'), (Char.ofNat 123, 'C'), ('(', 'C')]

/-- `CONFUSION_MAP.get(ch, ch)`. -/
def confusionApply (c : Char) : Char :=
  ((CONFUSION_MAP.find? (fun p => p.1 = c)).map (·.2)).getD c

/-- `_clean_ocr_text`: upper-case and strip, apply the confusable table, keep
alphabetic characters, return the first letter with a leading `Q` expanded to
`QU`. -/
def clean_ocr_text (text : String) : String :=
  let text := pyStrip (pyUpper text)
  if text = "" then ""
  else
    match (text.data.map confusionApply).filter pyIsAlpha with
    | [] => ""
    | c :: _ => if c = 'Q' then "QU" else String.mk [c]

/-! ## Recognition (`app/recognition.py`) -/

/-- A preprocessed (binarized) cell image: dimensions and pixel values. -/
structure ProcImg where
  h : Nat
  w : Nat
  px : Nat → Nat → Nat

/-- Number of dark pixels (`< 128`) in the sub-image starting at row `r0`,
column `c0`. -/
def count_dark (p : ProcImg) (r0 c0 : Nat) : Nat :=
  (((List.range p.h).drop r0).flatMap
    (fun r => ((List.range p.w).drop c0).map (fun c => p.px r c))).countP (fun v => v < 128)

/-- The ratio of dark pixels in the lower-right quadrant to all dark pixels,
computed by `_disambiguate_rp` (`total_dark` is clamped to at least 1). -/
def rpFrac (p : ProcImg) : ℚ :=
  qDiv ((count_dark p (p.h / 2) (p.w / 2) : Nat) : ℚ) ((max (count_dark p 0 0) 1 : Nat) : ℚ)

/-- `_disambiguate_rp`: `R` when the lower-right dark ratio exceeds 0.08, else `P`. -/
def disambiguate_rp (p : ProcImg) : String :=
  if rpFrac p > mkRat 8 100 then "R" else "P"

/-- `TEMPLATE_HOLES` of `app/recognition.py`. -/
def TEMPLATE_HOLES : List (String × Nat) :=
  [("A", 1), ("B", 2), ("C", 0), ("D", 1), ("E", 0), ("F", 0), ("G", 0), ("H", 0),
   ("I", 0), ("J", 0), ("K", 0), ("L", 0), ("M", 0), ("N", 0), ("O", 1), ("P", 1),
   ("QU", 1), ("R", 1), ("S", 0), ("T", 0), ("U", 0), ("V", 0), ("W", 0), ("X", 0),
   ("Y", 0), ("Z", 0)]

/-- `TEMPLATE_HOLES.get(letter, 0)`. -/
def holesFor (letter : String) : Nat :=
  ((TEMPLATE_HOLES.find? (fun p => p.1 = letter)).map (·.2)).getD 0

/-- Oracles for the external capabilities used by `recognize_cells`:
cv2 preprocessing and scoring (pure image transforms) and the easyocr
reader invocation, which may fail (`Except`).  `ι` is the raw cell image
type, `τ` the template image type, `ρ` the reader handle type, `ω` the
warped-board image type, `ε` the exception type. -/
structure RecogOracles (ι ρ ω τ ε : Type) where
  preprocess_cell : ι → ProcImg
  matchScore : ProcImg → τ → ℚ
  count_holes : ProcImg → Nat
  readtext : ρ → ω → Except ε (List (List (ℚ × ℚ) × String × ℚ))
  synthetic_templates : List (String × τ)

/-- `_template_match_verified`: score every template, sort descending by score
(stable, like Python `list.sort`), pick the first candidate whose hole count is
within 1 of expectation, apply the structural R/P check to it, and fall back to
the top-scoring candidate when no hole count is compatible. -/
def template_match_verified {ι ρ ω τ ε : Type} (O : RecogOracles ι ρ ω τ ε)
    (cell_processed : ProcImg) (templates : List (String × τ)) : String × ℚ :=
  let scores := (templates.map (fun lt => (lt.1, O.matchScore cell_processed lt.2))).mergeSort
    (fun a b => decide (b.2 ≤ a.2))
  match scores with
  | [] => ("?", 0)
  | top :: _ =>
    let cell_holes := O.count_holes cell_processed
    match scores.find? (fun ls => ((cell_holes : Int) - (holesFor ls.1 : Int)).natAbs ≤ 1) with
    | some ls =>
      if ls.1 = "R" ∨ ls.1 = "P" then
        let correct := disambiguate_rp cell_processed
        if correct ≠ ls.1 then
          (correct, (((scores.find? (fun x => x.1 = correct)).map (·.2)).getD ls.2))
        else ls
      else ls
    | none => top

/-- `_easyocr_full_board`: invoke the reader (failures propagate), map each
text box to the cell under its center, clean the text, and keep the
highest-confidence detection per cell.  `warped_shape0` is the pixel height of
the warped board. -/
def easyocr_full_board {ι ρ ω τ ε : Type} (O : RecogOracles ι ρ ω τ ε)
    (warped_shape0 : ℚ) (grid_size : Nat) (reader : ρ) (warped : ω) :
    Except ε (List ((Nat × Nat) × (String × ℚ))) :=
  match O.readtext reader warped with
  | .error e => .error e
  | .ok results =>
    let cell_size : ℚ := qDiv warped_shape0 ((grid_size : Nat) : ℚ)
    .ok (results.foldl (fun detections det =>
      let cx := qDiv (qAdd (det.1.getD 0 (0, 0)).1 (det.1.getD 2 (0, 0)).1) 2
      let cy := qDiv (qAdd (det.1.getD 0 (0, 0)).2 (det.1.getD 2 (0, 0)).2) 2
      let r := (min (pyInt (qDiv cy cell_size)) ((grid_size : Int) - 1)).toNat
      let c := (min (pyInt (qDiv cx cell_size)) ((grid_size : Int) - 1)).toNat
      let text := clean_ocr_text det.2.1
      if text = "" then detections
      else
        match detections.find? (fun kv => kv.1 = (r, c)) with
        | none => detections ++ [((r, c), (text, det.2.2))]
        | some kv =>
          if det.2.2 > kv.2.2 then
            detections.map (fun kv' => if kv'.1 = (r, c) then ((r, c), (text, det.2.2)) else kv')
          else detections) [])

/-- One iteration of the smart-merge cross-validation loop of
`recognize_cells` (step 3): recompute the verified template result `tmv idx`
for a detected cell and either override, keep, or boost. -/
def crossValidateStep (tmv : Nat → String × ℚ) (n : Nat)
    (st : List String × List ℚ) (kv : (Nat × Nat) × (String × ℚ)) :
    List String × List ℚ :=
  let idx := kv.1.1 * n + kv.1.2
  let ocr_letter := kv.2.1
  let ocr_conf := kv.2.2
  let tpl := tmv idx
  if tpl.1 ≠ ocr_letter ∧ ocr_conf < mkRat 9 10 then
    if tpl.2 > mkRat 85 100 ∨ (tpl.2 > ocr_conf ∧ ocr_conf < mkRat 7 10) then
      (st.1.set idx tpl.1, st.2.set idx tpl.2)
    else st
  else (st.1, st.2.set idx (max (st.2.getD idx 0) tpl.2))

/-- Step 3 of `recognize_cells`: the smart-merge loop over all detections. -/
def crossValidate (tmv : Nat → String × ℚ) (dets : List ((Nat × Nat) × (String × ℚ)))
    (n : Nat) (st : List String × List ℚ) : List String × List ℚ :=
  dets.foldl (crossValidateStep tmv n) st

deriving instance DecidableEq for Except

/-- The grid dimension used by `recognize_cells`
(`n = grid_size if grid_size else int(len(cells) ** 0.5)`). -/
def gridN (grid_size : Option Nat) (numCells : Nat) : Nat :=
  match grid_size with
  | some g => if g ≠ 0 then g else Nat.sqrt numCells
  | none => Nat.sqrt numCells

/-- The pure tail of `recognize_cells` once the full-board OCR detections are
in hand: set detected letters, template fallback for undetected cells,
smart-merge cross-validation (only with calibrated templates), the final
structural R/P sweep, Q-to-QU normalization, and the reshape to an
`n` by `n` grid. -/
def recogAfterDetections {ι ρ ω τ ε : Type} [Inhabited ι] (O : RecogOracles ι ρ ω τ ε)
    (cells : List ι) (templates : Option (List (String × τ))) (n : Nat)
    (easyocr_detections : List ((Nat × Nat) × (String × ℚ))) :
    List (List String) × List (List ℚ) :=
  let letters0 : List String := List.replicate cells.length "?"
  let confidences0 : List ℚ := List.replicate cells.length 0
  let st1 := easyocr_detections.foldl
    (fun st kv =>
      let idx := kv.1.1 * n + kv.1.2
      (st.1.set idx kv.2.1, st.2.set idx kv.2.2))
    (letters0, confidences0)
  let tpl := match templates with
    | some t => if !t.isEmpty then t else O.synthetic_templates
    | none => O.synthetic_templates
  let undetected := (List.range cells.length).filter (fun i => st1.1.getD i "?" = "?")
  let st2 := undetected.foldl
    (fun st i =>
      let lc := template_match_verified O (O.preprocess_cell (cells.getD i default)) tpl
      (st.1.set i lc.1, st.2.set i lc.2))
    st1
  let st3 := match templates with
    | some t =>
      if !t.isEmpty then
        crossValidate
          (fun idx => template_match_verified O (O.preprocess_cell (cells.getD idx default)) tpl)
          easyocr_detections n st2
      else st2
    | none => st2
  let letters4 := st3.1.mapIdx (fun i l =>
    if l = "R" ∨ l = "P" then
      let correct := disambiguate_rp (O.preprocess_cell (cells.getD i default))
      if correct ≠ l then correct else l
    else l)
  let letters5 := letters4.map (fun l => if l = "Q" then "QU" else l)
  ((List.range n).map (fun r => (letters5.drop (r * n)).take n),
   (List.range n).map (fun r => (st3.2.drop (r * n)).take n))

/-- `recognize_cells`: full-board OCR pass, then `recogAfterDetections`.
A failure of the reader invocation propagates out of the surrounding
`Except`. -/
def recognize_cells {ι ρ ω τ ε : Type} [Inhabited ι] (O : RecogOracles ι ρ ω τ ε)
    (cells : List ι) (templates : Option (List (String × τ)))
    (easyocr_reader : Option ρ) (confidence_threshold : ℚ)
    (warped_gray : Option ω) (warped_shape0 : ℚ) (grid_size : Option Nat) :
    Except ε (List (List String) × List (List ℚ)) :=
  let n := gridN grid_size cells.length
  let detsE : Except ε (List ((Nat × Nat) × (String × ℚ))) :=
    match easyocr_reader, warped_gray with
    | some reader, some wg => easyocr_full_board O warped_shape0 n reader wg
    | _, _ => .ok []
  match detsE with
  | .error e => .error e
  | .ok easyocr_detections =>
    .ok (recogAfterDetections O cells templates n easyocr_detections)

/-! ## Claim C7: totality and idempotence of the OCR text cleaner -/

theorem char_le_iff_toNat (a b : Char) : a ≤ b ↔ a.toNat ≤ b.toNat := by
  rw [Char.le_def, UInt32.le_def]
  simp [Char.toNat, UInt32.toNat, BitVec.le_def]

theorem char_ofNat_toNat {m : Nat} (h : m ≤ 55295) : (Char.ofNat m).toNat = m := by
  have hv : m.isValidChar := Or.inl (by omega)
  simp [Char.ofNat, hv, Char.ofNatAux, Char.toNat, UInt32.toNat, BitVec.toNat_ofNatLt]

theorem pyUpperChar_not_lower (c : Char) : ¬('a' ≤ pyUpperChar c ∧ pyUpperChar c ≤ 'z') := by
  unfold pyUpperChar
  by_cases h : 'a' ≤ c ∧ c ≤ 'z'
  · rw [if_pos h]
    have h1 : 97 ≤ c.toNat := (char_le_iff_toNat 'a' c).mp h.1
    have h2 : c.toNat ≤ 122 := (char_le_iff_toNat c 'z').mp h.2
    have hof : (Char.ofNat (c.toNat - 32)).toNat = c.toNat - 32 := char_ofNat_toNat (by omega)
    rintro ⟨hl, hr⟩
    have h3 := (char_le_iff_toNat 'a' _).mp hl
    rw [hof] at h3
    have ha97 : ('a').toNat = 97 := by decide
    have hz122 : ('z').toNat = 122 := by decide
    omega
  · rw [if_neg h]
    exact h

theorem pyUpperChar_eq_self {c : Char} (h : ¬('a' ≤ c ∧ c ≤ 'z')) : pyUpperChar c = c := by
  unfold pyUpperChar
  rw [if_neg h]

theorem confusionApply_eq_self_of_alpha {c : Char} (h : pyIsAlpha c = true) :
    confusionApply c = c := by
  unfold confusionApply
  cases hf : CONFUSION_MAP.find? (fun p => p.1 = c) with
  | none => rfl
  | some p =>
    have hp : p ∈ CONFUSION_MAP := List.mem_of_find?_eq_some hf
    have hc : p.1 = c := by
      have := List.find?_some hf
      exact of_decide_eq_true this
    subst hc
    simp only [CONFUSION_MAP, List.mem_cons, List.not_mem_nil, or_false] at hp
    rcases hp with h1 | h1 | h1 | h1 | h1 | h1 | h1 <;>
      (rw [h1] at h ⊢; revert h; decide)

theorem pyIsSpace_eq_false_of_alpha {c : Char} (h : pyIsAlpha c = true) :
    pyIsSpace c = false := by
  by_contra hs
  have hs' : pyIsSpace c = true := by
    cases hsp : pyIsSpace c
    · exact absurd hsp hs
    · rfl
  simp only [pyIsSpace, decide_eq_true_eq] at hs'
  have : c = ' ' ∨ c = '\t' ∨ c = '\n' ∨ c = '\r' ∨ c = '\x0b' ∨ c = '\x0c' := by
    tauto
  rcases this with h1 | h1 | h1 | h1 | h1 | h1 <;> (rw [h1] at h; revert h; decide)

theorem pyUpperChar_image_not_lower (e : Char) :
    ¬('a' ≤ pyUpperChar e ∧ pyUpperChar e ≤ 'z') := pyUpperChar_not_lower e

theorem confusion_image_not_lower {d c : Char} (hc : confusionApply d = c)
    (hd : ¬('a' ≤ d ∧ d ≤ 'z')) : ¬('a' ≤ c ∧ c ≤ 'z') := by
  unfold confusionApply at hc
  cases hf : CONFUSION_MAP.find? (fun p => p.1 = d) with
  | none => rw [hf] at hc; simp at hc; rw [← hc]; exact hd
  | some p =>
    rw [hf] at hc
    simp at hc
    have hp : p ∈ CONFUSION_MAP := List.mem_of_find?_eq_some hf
    simp only [CONFUSION_MAP, List.mem_cons, List.not_mem_nil, or_false] at hp
    rcases hp with h1 | h1 | h1 | h1 | h1 | h1 | h1 <;> (rw [h1] at hc; rw [← hc]; decide)

theorem mem_pyStrip {x : Char} {s : String} (h : x ∈ (pyStrip s).data) : x ∈ s.data := by
  unfold pyStrip at h
  simp only [String.data] at h
  rw [List.mem_reverse] at h
  have h1 := (List.dropWhile_sublist (l := (s.data.dropWhile pyIsSpace).reverse)
    (p := pyIsSpace)).mem h
  rw [List.mem_reverse] at h1
  exact (List.dropWhile_sublist (l := s.data) (p := pyIsSpace)).mem h1

/-- Every output of the cleaner is empty, `QU`, or a single non-lowercase
letter other than `Q`. -/
theorem clean_ocr_text_shape (s : String) :
    clean_ocr_text s = "" ∨ clean_ocr_text s = "QU" ∨
    ∃ c, clean_ocr_text s = String.mk [c] ∧ pyIsAlpha c = true ∧
      ¬('a' ≤ c ∧ c ≤ 'z') ∧ c ≠ 'Q' := by
  unfold clean_ocr_text
  by_cases ht : pyStrip (pyUpper s) = ""
  · rw [if_pos ht]
    exact Or.inl rfl
  · rw [if_neg ht]
    cases hm : ((pyStrip (pyUpper s)).data.map confusionApply).filter pyIsAlpha with
    | nil => exact Or.inl rfl
    | cons c rest =>
      have hcmem : c ∈ ((pyStrip (pyUpper s)).data.map confusionApply).filter pyIsAlpha := by
        rw [hm]; exact List.mem_cons_self _ _
      have hcalpha : pyIsAlpha c = true := List.of_mem_filter hcmem
      have hcmap : c ∈ (pyStrip (pyUpper s)).data.map confusionApply :=
        List.mem_of_mem_filter hcmem
      rcases List.mem_map.mp hcmap with ⟨d, hd, hdc⟩
      have hdup : d ∈ (pyUpper s).data := mem_pyStrip hd
      have hdlow : ¬('a' ≤ d ∧ d ≤ 'z') := by
        unfold pyUpper at hdup
        simp only [String.data] at hdup
        rcases List.mem_map.mp hdup with ⟨e, _, he⟩
        rw [← he]
        exact pyUpperChar_not_lower e
      have hclow : ¬('a' ≤ c ∧ c ≤ 'z') := confusion_image_not_lower hdc hdlow
      by_cases hq : c = 'Q'
      · refine Or.inr (Or.inl ?_)
        simp [hq]
      · refine Or.inr (Or.inr ⟨c, ?_, hcalpha, hclow, hq⟩)
        simp [hq]

theorem clean_ocr_text_single {c : Char} (halpha : pyIsAlpha c = true)
    (hlow : ¬('a' ≤ c ∧ c ≤ 'z')) (hq : c ≠ 'Q') :
    clean_ocr_text (String.mk [c]) = String.mk [c] := by
  have h1 : pyUpperChar c = c := pyUpperChar_eq_self hlow
  have h2 : pyIsSpace c = false := pyIsSpace_eq_false_of_alpha halpha
  have h3 : confusionApply c = c := confusionApply_eq_self_of_alpha halpha
  have hup : pyUpper (String.mk [c]) = String.mk [c] := by
    unfold pyUpper
    simp [h1]
  have hstrip : pyStrip (String.mk [c]) = String.mk [c] := by
    unfold pyStrip
    simp [List.dropWhile, h2]
  have hne : String.mk [c] ≠ "" := by
    intro h
    have : ([c] : List Char) = [] := congrArg String.data h
    simp at this
  unfold clean_ocr_text
  rw [hup, hstrip, if_neg hne]
  simp [h3, halpha, List.filter, hq]

/-- C7: the OCR text cleaner is total (a function on all of `String`, with
the empty string mapped to itself) and idempotent, maps each confusable
character to its table image, keeps only the first remaining letter, and
expands a leading `q`/`Q` to `QU`. -/
theorem C7_clean_text_total_idempotent :
    (∀ s, clean_ocr_text (clean_ocr_text s) = clean_ocr_text s) ∧
    clean_ocr_text "" = "" ∧
    clean_ocr_text "0" = "O" ∧ clean_ocr_text "1" = "I" ∧ clean_ocr_text "5" = "S" ∧
    clean_ocr_text "|" = "I" ∧ clean_ocr_text "!" = "I" ∧
    clean_ocr_text "(" = "C" ∧ clean_ocr_text "\x7b" = "C" ∧
    clean_ocr_text "AB" = "A" ∧
    clean_ocr_text "q" = "QU" ∧ clean_ocr_text "Q" = "QU" := by
  refine ⟨?_, by decide, by decide, by decide, by decide, by decide, by decide,
    by decide, by decide, by decide, by decide, by decide⟩
  intro s
  rcases clean_ocr_text_shape s with h | h | ⟨c, h, halpha, hlow, hq⟩
  · rw [h]; decide
  · rw [h]; decide
  · rw [h]
    exact clean_ocr_text_single halpha hlow hq

/-! ## Claim C10: the census-to-grid-size mapping -/

theorem foldl_min_unique (key : Nat → Nat) (b : Nat) :
    ∀ (xs : List Nat) (acc : Nat),
      (∀ y ∈ xs, y ≠ b → key b < key y) →
      (acc = b ∨ (key b < key acc ∧ b ∈ xs)) →
      xs.foldl (fun best y => if key y < key best then y else best) acc = b := by
  intro xs
  induction xs with
  | nil =>
    intro acc _ hacc
    rcases hacc with h | ⟨_, h⟩
    · exact h
    · simp at h
  | cons y ys ih =>
    intro acc hmin hacc
    simp only [List.foldl_cons]
    rcases hacc with rfl | ⟨hlt, hmem⟩
    · have hy : ¬ key y < key acc := by
        by_cases hyb : y = acc
        · rw [hyb]; omega
        · have := hmin y (List.mem_cons_self _ _) hyb
          omega
      rw [if_neg hy]
      exact ih _ (fun z hz => hmin z (List.mem_cons_of_mem _ hz)) (Or.inl rfl)
    · by_cases hyb : y = b
      · subst hyb
        rw [if_pos hlt]
        exact ih _ (fun z hz => hmin z (List.mem_cons_of_mem _ hz)) (Or.inl rfl)
      · have hmemys : b ∈ ys := by
          rcases List.mem_cons.mp hmem with h | h
          · exact absurd h.symm hyb
          · exact h
        have hby : key b < key y := hmin y (List.mem_cons_self _ _) hyb
        by_cases hswitch : key y < key acc
        · rw [if_pos hswitch]
          exact ih _ (fun z hz => hmin z (List.mem_cons_of_mem _ hz)) (Or.inr ⟨hby, hmemys⟩)
        · rw [if_neg hswitch]
          exact ih _ (fun z hz => hmin z (List.mem_cons_of_mem _ hz)) (Or.inr ⟨hlt, hmemys⟩)

theorem pyMinBy_unique_min (key : Nat → Nat) {l : List Nat} {b : Nat} (hb : b ∈ l)
    (hmin : ∀ m ∈ l, m ≠ b → key b < key m) : pyMinBy key l = some b := by
  cases l with
  | nil => simp at hb
  | cons x xs =>
    show some (xs.foldl (fun best y => if key y < key best then y else best) x) = some b
    congr 1
    rcases List.mem_cons.mp hb with heq | hbxs
    · exact foldl_min_unique key b xs x
        (fun z hz => hmin z (List.mem_cons_of_mem _ hz)) (Or.inl heq.symm)
    · by_cases hxb : x = b
      · exact foldl_min_unique key b xs x
          (fun z hz => hmin z (List.mem_cons_of_mem _ hz)) (Or.inl hxb)
      · exact foldl_min_unique key b xs x
          (fun z hz => hmin z (List.mem_cons_of_mem _ hz))
          (Or.inr ⟨hmin x (List.mem_cons_self _ _) hxb, hbxs⟩)

/-- C10: for every census count exactly one of the candidates 16, 25, 36 is
strictly nearest by absolute distance, `min` over any ordering of the
candidates returns it, and the resulting grid size is always 4, 5 or 6. -/
theorem C10_infer_grid_size_total_deterministic (cell_count : Nat) :
    ∃ b ∈ ([16, 25, 36] : List Nat),
      (∀ m ∈ ([16, 25, 36] : List Nat), m ≠ b →
        ((b : Int) - (cell_count : Int)).natAbs < ((m : Int) - (cell_count : Int)).natAbs) ∧
      (∀ l, l.Perm ([16, 25, 36] : List Nat) →
        pyMinBy (fun n => ((n : Int) - (cell_count : Int)).natAbs) l = some b) ∧
      infer_grid_size cell_count ∈ ([4, 5, 6] : List Nat) := by
  have main : ∀ b : Nat, b ∈ ([16, 25, 36] : List Nat) →
      (∀ m ∈ ([16, 25, 36] : List Nat), m ≠ b →
        ((b : Int) - (cell_count : Int)).natAbs < ((m : Int) - (cell_count : Int)).natAbs) →
      ∃ b' ∈ ([16, 25, 36] : List Nat),
        (∀ m ∈ ([16, 25, 36] : List Nat), m ≠ b' →
          ((b' : Int) - (cell_count : Int)).natAbs < ((m : Int) - (cell_count : Int)).natAbs) ∧
        (∀ l, l.Perm ([16, 25, 36] : List Nat) →
          pyMinBy (fun n => ((n : Int) - (cell_count : Int)).natAbs) l = some b') ∧
        infer_grid_size cell_count ∈ ([4, 5, 6] : List Nat) := by
    intro b hbmem hbmin
    refine ⟨b, hbmem, hbmin, ?_, ?_⟩
    · intro l hperm
      exact pyMinBy_unique_min _ (hperm.mem_iff.mpr hbmem)
        (fun m hm => hbmin m (hperm.mem_iff.mp hm))
    · have hb : pyMinBy (fun n => ((n : Int) - (cell_count : Int)).natAbs) [16, 25, 36] =
          some b := pyMinBy_unique_min _ hbmem hbmin
      unfold infer_grid_size
      simp only [List.map_cons, List.map_nil, hb, Option.getD_some]
      fin_cases hbmem <;> decide
  by_cases h20 : cell_count ≤ 20
  · refine main 16 (by decide) ?_
    intro m hm hne
    simp only [List.mem_cons, List.not_mem_nil, or_false] at hm
    rcases hm with rfl | rfl | rfl
    · exact absurd rfl hne
    · omega
    · omega
  · by_cases h30 : cell_count ≤ 30
    · refine main 25 (by decide) ?_
      intro m hm hne
      simp only [List.mem_cons, List.not_mem_nil, or_false] at hm
      rcases hm with rfl | rfl | rfl
      · omega
      · exact absurd rfl hne
      · omega
    · refine main 36 (by decide) ?_
      intro m hm hne
      simp only [List.mem_cons, List.not_mem_nil, or_false] at hm
      rcases hm with rfl | rfl | rfl
      · omega
      · omega
      · exact absurd rfl hne

/-! ## Claim C5: corner canonicalization extrema -/

theorem getD_eq_get {α : Type} (l : List α) (d : α) {k : Nat} (h : k < l.length) :
    l.getD k d = l.get ⟨k, h⟩ := by
  simp [List.getD, List.getElem?_eq_getElem h, List.get_eq_getElem]

theorem argminAux_spec (ys : List ℚ) :
    ∀ (i bi : Nat) (bv : ℚ),
      (argminAux ys i bi bv = bi ∧ ∀ y ∈ ys, bv ≤ y) ∨
      (∃ k, ∃ h : k < ys.length, argminAux ys i bi bv = i + k ∧
        ys.get ⟨k, h⟩ ≤ bv ∧ ∀ y ∈ ys, ys.get ⟨k, h⟩ ≤ y) := by
  induction ys with
  | nil =>
    intro i bi bv
    exact Or.inl ⟨rfl, by simp⟩
  | cons y ys ih =>
    intro i bi bv
    by_cases hy : y < bv
    · have hstep : argminAux (y :: ys) i bi bv = argminAux ys (i + 1) i y := by
        simp only [argminAux]
        rw [if_pos hy]
      rcases ih (i + 1) i y with ⟨heq, hall⟩ | ⟨k, hk, heq, hle, hall⟩
      · refine Or.inr ⟨0, by simp, by rw [hstep, heq]; omega, le_of_lt hy, ?_⟩
        intro z hz
        rcases List.mem_cons.mp hz with rfl | hz
        · exact le_refl _
        · exact hall z hz
      · refine Or.inr ⟨k + 1, by simpa using hk, by rw [hstep, heq]; omega, ?_, ?_⟩
        · exact le_trans hle (le_of_lt hy)
        · intro z hz
          rcases List.mem_cons.mp hz with rfl | hz
          · exact hle
          · exact hall z hz
    · have hstep : argminAux (y :: ys) i bi bv = argminAux ys (i + 1) bi bv := by
        simp only [argminAux]
        rw [if_neg hy]
      rcases ih (i + 1) bi bv with ⟨heq, hall⟩ | ⟨k, hk, heq, hle, hall⟩
      · refine Or.inl ⟨by rw [hstep, heq], ?_⟩
        intro z hz
        rcases List.mem_cons.mp hz with rfl | hz
        · exact not_lt.mp hy
        · exact hall z hz
      · refine Or.inr ⟨k + 1, by simpa using hk, by rw [hstep, heq]; omega, hle, ?_⟩
        intro z hz
        rcases List.mem_cons.mp hz with rfl | hz
        · exact le_trans hle (not_lt.mp hy)
        · exact hall z hz

theorem argmaxAux_spec (ys : List ℚ) :
    ∀ (i bi : Nat) (bv : ℚ),
      (argmaxAux ys i bi bv = bi ∧ ∀ y ∈ ys, y ≤ bv) ∨
      (∃ k, ∃ h : k < ys.length, argmaxAux ys i bi bv = i + k ∧
        bv ≤ ys.get ⟨k, h⟩ ∧ ∀ y ∈ ys, y ≤ ys.get ⟨k, h⟩) := by
  induction ys with
  | nil =>
    intro i bi bv
    exact Or.inl ⟨rfl, by simp⟩
  | cons y ys ih =>
    intro i bi bv
    by_cases hy : bv < y
    · have hstep : argmaxAux (y :: ys) i bi bv = argmaxAux ys (i + 1) i y := by
        simp only [argmaxAux]
        rw [if_pos hy]
      rcases ih (i + 1) i y with ⟨heq, hall⟩ | ⟨k, hk, heq, hle, hall⟩
      · refine Or.inr ⟨0, by simp, by rw [hstep, heq]; omega, le_of_lt hy, ?_⟩
        intro z hz
        rcases List.mem_cons.mp hz with rfl | hz
        · exact le_refl _
        · exact hall z hz
      · refine Or.inr ⟨k + 1, by simpa using hk, by rw [hstep, heq]; omega, ?_, ?_⟩
        · exact le_trans (le_of_lt hy) hle
        · intro z hz
          rcases List.mem_cons.mp hz with rfl | hz
          · exact hle
          · exact hall z hz
    · have hstep : argmaxAux (y :: ys) i bi bv = argmaxAux ys (i + 1) bi bv := by
        simp only [argmaxAux]
        rw [if_neg hy]
      rcases ih (i + 1) bi bv with ⟨heq, hall⟩ | ⟨k, hk, heq, hle, hall⟩
      · refine Or.inl ⟨by rw [hstep, heq], ?_⟩
        intro z hz
        rcases List.mem_cons.mp hz with rfl | hz
        · exact not_lt.mp hy
        · exact hall z hz
      · refine Or.inr ⟨k + 1, by simpa using hk, by rw [hstep, heq]; omega, hle, ?_⟩
        intro z hz
        rcases List.mem_cons.mp hz with rfl | hz
        · exact le_trans (not_lt.mp hy) hle
        · exact hall z hz

theorem pyArgmin_spec (l : List ℚ) (hne : l ≠ []) :
    pyArgmin l < l.length ∧ ∀ y ∈ l, l.getD (pyArgmin l) 0 ≤ y := by
  cases l with
  | nil => exact absurd rfl hne
  | cons x xs =>
    show argminAux xs 1 0 x < (x :: xs).length ∧
      ∀ y ∈ x :: xs, (x :: xs).getD (argminAux xs 1 0 x) 0 ≤ y
    rcases argminAux_spec xs 1 0 x with ⟨heq, hall⟩ | ⟨k, hk, heq, hle, hall⟩
    · rw [heq]
      refine ⟨by simp, ?_⟩
      intro y hy
      rcases List.mem_cons.mp hy with rfl | hy
      · exact le_refl _
      · exact hall y hy
    · rw [heq]
      have hlen : 1 + k < (x :: xs).length := by simp; omega
      have hgd : (x :: xs).getD (1 + k) 0 = xs.get ⟨k, hk⟩ := by
        rw [getD_eq_get (x :: xs) 0 hlen]
        have : (x :: xs).get ⟨1 + k, hlen⟩ = (x :: xs).get ⟨k + 1, by omega⟩ := by
          congr 1
          simp [Nat.add_comm]
        rw [this]
        rfl
      refine ⟨hlen, ?_⟩
      intro y hy
      rw [hgd]
      rcases List.mem_cons.mp hy with rfl | hy
      · exact hle
      · exact hall y hy

theorem pyArgmax_spec (l : List ℚ) (hne : l ≠ []) :
    pyArgmax l < l.length ∧ ∀ y ∈ l, y ≤ l.getD (pyArgmax l) 0 := by
  cases l with
  | nil => exact absurd rfl hne
  | cons x xs =>
    show argmaxAux xs 1 0 x < (x :: xs).length ∧
      ∀ y ∈ x :: xs, y ≤ (x :: xs).getD (argmaxAux xs 1 0 x) 0
    rcases argmaxAux_spec xs 1 0 x with ⟨heq, hall⟩ | ⟨k, hk, heq, hle, hall⟩
    · rw [heq]
      refine ⟨by simp, ?_⟩
      intro y hy
      rcases List.mem_cons.mp hy with rfl | hy
      · exact le_refl _
      · exact hall y hy
    · rw [heq]
      have hlen : 1 + k < (x :: xs).length := by simp; omega
      have hgd : (x :: xs).getD (1 + k) 0 = xs.get ⟨k, hk⟩ := by
        rw [getD_eq_get (x :: xs) 0 hlen]
        have : (x :: xs).get ⟨1 + k, hlen⟩ = (x :: xs).get ⟨k + 1, by omega⟩ := by
          congr 1
          simp [Nat.add_comm]
        rw [this]
        rfl
      refine ⟨hlen, ?_⟩
      intro y hy
      rw [hgd]
      rcases List.mem_cons.mp hy with rfl | hy
      · exact hle
      · exact hall y hy

theorem argmin_map_spec {A : Type} (pts : List A) (f : A → ℚ) (dflt : A) (hne : pts ≠ []) :
    pts.getD (pyArgmin (pts.map f)) dflt ∈ pts ∧
    ∀ p ∈ pts, f (pts.getD (pyArgmin (pts.map f)) dflt) ≤ f p := by
  have hmne : pts.map f ≠ [] := by
    intro h
    exact hne (List.map_eq_nil_iff.mp h)
  obtain ⟨hlt, hall⟩ := pyArgmin_spec (pts.map f) hmne
  rw [List.length_map] at hlt
  have hgd : pts.getD (pyArgmin (pts.map f)) dflt = pts.get ⟨_, hlt⟩ := getD_eq_get _ _ hlt
  refine ⟨by rw [hgd]; exact List.get_mem _ _ _, ?_⟩
  intro p hp
  have h1 : (pts.map f).getD (pyArgmin (pts.map f)) 0 = f (pts.get ⟨_, hlt⟩) := by
    rw [getD_eq_get (pts.map f) 0 (by rw [List.length_map]; exact hlt)]
    simp [List.get_eq_getElem]
  rw [hgd, ← h1]
  exact hall (f p) (List.mem_map_of_mem f hp)

theorem argmax_map_spec {A : Type} (pts : List A) (f : A → ℚ) (dflt : A) (hne : pts ≠ []) :
    pts.getD (pyArgmax (pts.map f)) dflt ∈ pts ∧
    ∀ p ∈ pts, f p ≤ f (pts.getD (pyArgmax (pts.map f)) dflt) := by
  have hmne : pts.map f ≠ [] := by
    intro h
    exact hne (List.map_eq_nil_iff.mp h)
  obtain ⟨hlt, hall⟩ := pyArgmax_spec (pts.map f) hmne
  rw [List.length_map] at hlt
  have hgd : pts.getD (pyArgmax (pts.map f)) dflt = pts.get ⟨_, hlt⟩ := getD_eq_get _ _ hlt
  refine ⟨by rw [hgd]; exact List.get_mem _ _ _, ?_⟩
  intro p hp
  have h1 : (pts.map f).getD (pyArgmax (pts.map f)) 0 = f (pts.get ⟨_, hlt⟩) := by
    rw [getD_eq_get (pts.map f) 0 (by rw [List.length_map]; exact hlt)]
    simp [List.get_eq_getElem]
  rw [hgd, ← h1]
  exact hall (f p) (List.mem_map_of_mem f hp)

/-- C5 (amended): for any four corner points the canonicalization places a
point minimizing x + y first (top-left), a point maximizing x + y third
(bottom-right), a point minimizing y − x — equivalently maximizing x − y —
second (top-right), and a point maximizing y − x fourth (bottom-left); every
placed point is one of the inputs.  (The claim as stated swaps the roles of
the second and fourth positions; see the counterexample.) -/
theorem C5_order_corners_extrema (pts : List (ℚ × ℚ)) (h4 : pts.length = 4) :
    (∀ p ∈ pts, ((order_corners pts).getD 0 (0, 0)).1 + ((order_corners pts).getD 0 (0, 0)).2
        ≤ p.1 + p.2) ∧
    (∀ p ∈ pts, ((order_corners pts).getD 1 (0, 0)).2 - ((order_corners pts).getD 1 (0, 0)).1
        ≤ p.2 - p.1) ∧
    (∀ p ∈ pts, p.1 + p.2
        ≤ ((order_corners pts).getD 2 (0, 0)).1 + ((order_corners pts).getD 2 (0, 0)).2) ∧
    (∀ p ∈ pts, p.2 - p.1
        ≤ ((order_corners pts).getD 3 (0, 0)).2 - ((order_corners pts).getD 3 (0, 0)).1) ∧
    (∀ i, i < 4 → (order_corners pts).getD i (0, 0) ∈ pts) := by
  have hne : pts ≠ [] := by
    intro h
    rw [h] at h4
    simp at h4
  have hs : ∀ p : ℚ × ℚ, qAdd p.1 p.2 = p.1 + p.2 := fun p => qAdd_eq p.1 p.2
  have hd : ∀ p : ℚ × ℚ, qSub p.2 p.1 = p.2 - p.1 := fun p => qSub_eq p.2 p.1
  have h0 : (order_corners pts).getD 0 (0, 0) =
      pts.getD (pyArgmin (pts.map (fun p => qAdd p.1 p.2))) (0, 0) := rfl
  have h1 : (order_corners pts).getD 1 (0, 0) =
      pts.getD (pyArgmin (pts.map (fun p => qSub p.2 p.1))) (0, 0) := rfl
  have h2 : (order_corners pts).getD 2 (0, 0) =
      pts.getD (pyArgmax (pts.map (fun p => qAdd p.1 p.2))) (0, 0) := rfl
  have h3 : (order_corners pts).getD 3 (0, 0) =
      pts.getD (pyArgmax (pts.map (fun p => qSub p.2 p.1))) (0, 0) := rfl
  obtain ⟨hm0, hmin0⟩ := argmin_map_spec pts (fun p => qAdd p.1 p.2) (0, 0) hne
  obtain ⟨hm1, hmin1⟩ := argmin_map_spec pts (fun p => qSub p.2 p.1) (0, 0) hne
  obtain ⟨hm2, hmax2⟩ := argmax_map_spec pts (fun p => qAdd p.1 p.2) (0, 0) hne
  obtain ⟨hm3, hmax3⟩ := argmax_map_spec pts (fun p => qSub p.2 p.1) (0, 0) hne
  refine ⟨?_, ?_, ?_, ?_, ?_⟩
  · intro p hp
    have := hmin0 p hp
    rw [hs, hs] at this
    rw [h0]
    exact this
  · intro p hp
    have := hmin1 p hp
    rw [hd, hd] at this
    rw [h1]
    exact this
  · intro p hp
    have := hmax2 p hp
    rw [hs, hs] at this
    rw [h2]
    exact this
  · intro p hp
    have := hmax3 p hp
    rw [hd, hd] at this
    rw [h3]
    exact this
  · intro i hi
    interval_cases i
    · rw [h0]; exact hm0
    · rw [h1]; exact hm1
    · rw [h2]; exact hm2
    · rw [h3]; exact hm3

/-- C5 counterexample: on the unit square (a valid simple quadrilateral) the
second canonicalized point is (1, 0) — the top-right corner, which maximizes
x − y — while the input point (0, 1) has strictly smaller x − y, so the
claim that the second point minimizes x − y is false. -/
theorem C5_counterexample :
    (order_corners [((0 : ℚ), (0 : ℚ)), (1, 0), (1, 1), (0, 1)]).getD 1 (0, 0) = (1, 0) ∧
    ((0 : ℚ), (1 : ℚ)) ∈ [((0 : ℚ), (0 : ℚ)), (1, 0), (1, 1), (0, 1)] ∧
    ((0 : ℚ) - 1 < (1 : ℚ) - 0) := by
  refine ⟨by decide, by decide, by norm_num⟩

/-! ## Claim C3: the cross-validation (smart-merge) pass -/

theorem getD_set_self {α : Type} (l : List α) (i : Nat) (a d : α) (h : i < l.length) :
    (l.set i a).getD i d = a := by
  simp [List.getD, List.getElem?_set_self h]

theorem getD_set_ne {α : Type} (l : List α) {i j : Nat} (a d : α) (h : i ≠ j) :
    (l.set i a).getD j d = l.getD j d := by
  simp [List.getD, List.getElem?_set_ne h]

theorem grid_index_inj {n r c r' c' : Nat} (hc : c < n) (hc' : c' < n)
    (h : r * n + c = r' * n + c') : r = r' ∧ c = c' := by
  rcases lt_trichotomy r r' with hlt | heq | hgt
  · have hmul : (r + 1) * n ≤ r' * n := Nat.mul_le_mul_right n hlt
    rw [Nat.succ_mul] at hmul
    omega
  · subst heq
    omega
  · have hmul : (r' + 1) * n ≤ r * n := Nat.mul_le_mul_right n hgt
    rw [Nat.succ_mul] at hmul
    omega

theorem crossValidateStep_length (tmv : Nat → String × ℚ) (n : Nat)
    (st : List String × List ℚ) (kv : (Nat × Nat) × (String × ℚ)) :
    (crossValidateStep tmv n st kv).1.length = st.1.length ∧
    (crossValidateStep tmv n st kv).2.length = st.2.length := by
  unfold crossValidateStep
  dsimp only
  split
  · split
    · exact ⟨List.length_set _ _ _, List.length_set _ _ _⟩
    · exact ⟨rfl, rfl⟩
  · exact ⟨rfl, List.length_set _ _ _⟩

theorem crossValidateStep_getD_ne (tmv : Nat → String × ℚ) (n : Nat)
    (st : List String × List ℚ) (kv : (Nat × Nat) × (String × ℚ)) {idx : Nat}
    (hne : kv.1.1 * n + kv.1.2 ≠ idx) :
    (crossValidateStep tmv n st kv).1.getD idx "" = st.1.getD idx "" ∧
    (crossValidateStep tmv n st kv).2.getD idx 0 = st.2.getD idx 0 := by
  unfold crossValidateStep
  dsimp only
  split
  · split
    · exact ⟨getD_set_ne _ _ _ hne, getD_set_ne _ _ _ hne⟩
    · exact ⟨rfl, rfl⟩
  · exact ⟨rfl, getD_set_ne _ _ _ hne⟩

theorem crossValidate_getD_of_no_key (tmv : Nat → String × ℚ) (n : Nat) :
    ∀ (dets : List ((Nat × Nat) × (String × ℚ))) (st : List String × List ℚ) (idx : Nat),
      (∀ kv ∈ dets, kv.1.1 * n + kv.1.2 ≠ idx) →
      (crossValidate tmv dets n st).1.getD idx "" = st.1.getD idx "" ∧
      (crossValidate tmv dets n st).2.getD idx 0 = st.2.getD idx 0 := by
  intro dets
  induction dets with
  | nil => intro st idx _; exact ⟨rfl, rfl⟩
  | cons kv rest ih =>
    intro st idx hno
    have hkv : kv.1.1 * n + kv.1.2 ≠ idx := hno kv (List.mem_cons_self _ _)
    have hrest : ∀ kv' ∈ rest, kv'.1.1 * n + kv'.1.2 ≠ idx :=
      fun kv' h => hno kv' (List.mem_cons_of_mem _ h)
    obtain ⟨s1, s2⟩ := crossValidateStep_getD_ne tmv n st kv hkv
    obtain ⟨ih1, ih2⟩ := ih (crossValidateStep tmv n st kv) idx hrest
    exact ⟨by rw [show crossValidate tmv (kv :: rest) n st =
        crossValidate tmv rest n (crossValidateStep tmv n st kv) from rfl, ih1, s1],
      by rw [show crossValidate tmv (kv :: rest) n st =
        crossValidate tmv rest n (crossValidateStep tmv n st kv) from rfl, ih2, s2]⟩

/-- C3 (amended): in the cross-validation pass of `recognize_cells`
(`crossValidate`), for a cell resolved by the full-board OCR pass whose
recomputed verified template letter disagrees with the OCR letter while the
OCR confidence is below 0.9: the cell is overridden with the template letter
and confidence if the template confidence exceeds 0.85, or if the template
score exceeds the OCR score while the OCR confidence is below 0.7; if neither
override condition holds, the cell's letter and confidence are left unchanged.
When there is no such disagreement (same letter, or OCR confidence at least
0.9) the letter is kept and its confidence is raised to the maximum of the
stored and template confidences. -/
theorem C3_cross_validation_amended (tmv : Nat → String × ℚ) (n : Nat) :
    ∀ (dets : List ((Nat × Nat) × (String × ℚ))) (st : List String × List ℚ)
      (r c : Nat) (ol : String) (oc : ℚ),
      ((r, c), (ol, oc)) ∈ dets →
      (dets.map Prod.fst).Nodup →
      (∀ kv ∈ dets, kv.1.1 < n ∧ kv.1.2 < n) →
      r * n + c < st.1.length →
      r * n + c < st.2.length →
      (((tmv (r * n + c)).1 ≠ ol ∧ oc < mkRat 9 10) →
        (((tmv (r * n + c)).2 > mkRat 85 100 ∨
            ((tmv (r * n + c)).2 > oc ∧ oc < mkRat 7 10)) →
          (crossValidate tmv dets n st).1.getD (r * n + c) "" = (tmv (r * n + c)).1 ∧
          (crossValidate tmv dets n st).2.getD (r * n + c) 0 = (tmv (r * n + c)).2) ∧
        (¬((tmv (r * n + c)).2 > mkRat 85 100 ∨
            ((tmv (r * n + c)).2 > oc ∧ oc < mkRat 7 10)) →
          (crossValidate tmv dets n st).1.getD (r * n + c) "" = st.1.getD (r * n + c) "" ∧
          (crossValidate tmv dets n st).2.getD (r * n + c) 0 = st.2.getD (r * n + c) 0)) ∧
      (¬((tmv (r * n + c)).1 ≠ ol ∧ oc < mkRat 9 10) →
        (crossValidate tmv dets n st).1.getD (r * n + c) "" = st.1.getD (r * n + c) "" ∧
        (crossValidate tmv dets n st).2.getD (r * n + c) 0 =
          max (st.2.getD (r * n + c) 0) (tmv (r * n + c)).2) := by
  intro dets
  induction dets with
  | nil =>
    intro st r c ol oc hmem
    simp at hmem
  | cons kv rest ih =>
    intro st r c ol oc hmem hnodup hbound h1 h2
    have hnodup' : (rest.map Prod.fst).Nodup := by
      rw [List.map_cons, List.nodup_cons] at hnodup
      exact hnodup.2
    have hbound' : ∀ kv' ∈ rest, kv'.1.1 < n ∧ kv'.1.2 < n :=
      fun kv' h => hbound kv' (List.mem_cons_of_mem _ h)
    have hcv : crossValidate tmv (kv :: rest) n st =
        crossValidate tmv rest n (crossValidateStep tmv n st kv) := rfl
    rcases List.mem_cons.mp hmem with heq | hmemrest
    · -- the head entry is the target; no later entry touches its index
      subst heq
      have hbkv := hbound ((r, c), (ol, oc)) (List.mem_cons_self _ _)
      have hnokey : ∀ kv' ∈ rest, kv'.1.1 * n + kv'.1.2 ≠ r * n + c := by
        intro kv' hkv' habs
        have hb' := hbound kv' (List.mem_cons_of_mem _ hkv')
        obtain ⟨hr', hc'⟩ := grid_index_inj hb'.2 hbkv.2 habs
        have hfst : kv'.1 = (r, c) := Prod.ext hr' hc'
        have hmemmap : ((r, c) : Nat × Nat) ∈ rest.map Prod.fst :=
          hfst ▸ List.mem_map_of_mem Prod.fst hkv'
        rw [List.map_cons, List.nodup_cons] at hnodup
        exact hnodup.1 hmemmap
      rw [hcv]
      obtain ⟨hg1, hg2⟩ :=
        crossValidate_getD_of_no_key tmv n rest (crossValidateStep tmv n st ((r, c), (ol, oc)))
          (r * n + c) hnokey
      constructor
      · rintro ⟨hd, hc⟩
        constructor
        · intro hov
          have hstep : crossValidateStep tmv n st ((r, c), (ol, oc)) =
              (st.1.set (r * n + c) (tmv (r * n + c)).1,
               st.2.set (r * n + c) (tmv (r * n + c)).2) := by
            unfold crossValidateStep
            dsimp only
            rw [if_pos ⟨hd, hc⟩, if_pos hov]
          rw [hg1, hg2, hstep]
          exact ⟨getD_set_self _ _ _ _ h1, getD_set_self _ _ _ _ h2⟩
        · intro hov
          have hstep : crossValidateStep tmv n st ((r, c), (ol, oc)) = st := by
            unfold crossValidateStep
            dsimp only
            rw [if_pos ⟨hd, hc⟩, if_neg hov]
          rw [hg1, hg2, hstep]
          exact ⟨rfl, rfl⟩
      · intro hnd
        have hstep : crossValidateStep tmv n st ((r, c), (ol, oc)) =
            (st.1, st.2.set (r * n + c)
              (max (st.2.getD (r * n + c) 0) (tmv (r * n + c)).2)) := by
          unfold crossValidateStep
          dsimp only
          rw [if_neg hnd]
        rw [hg1, hg2, hstep]
        exact ⟨rfl, getD_set_self _ _ _ _ h2⟩
    · -- the head entry touches a different index
      have hbkv := hbound kv (List.mem_cons_self _ _)
      have hbt := hbound ((r, c), (ol, oc)) hmem
      have hkvne : kv.1.1 * n + kv.1.2 ≠ r * n + c := by
        intro habs
        obtain ⟨hr', hc'⟩ := grid_index_inj hbkv.2 hbt.2 habs
        have hfst : kv.1 = (r, c) := Prod.ext hr' hc'
        have hmemmap : ((r, c) : Nat × Nat) ∈ rest.map Prod.fst :=
          List.mem_map_of_mem Prod.fst hmemrest
        rw [List.map_cons, List.nodup_cons, hfst] at hnodup
        exact hnodup.1 hmemmap
      obtain ⟨hl1, hl2⟩ := crossValidateStep_length tmv n st kv
      obtain ⟨hp1, hp2⟩ := crossValidateStep_getD_ne tmv n st kv hkvne
      obtain ⟨ihA, ihB⟩ := ih (crossValidateStep tmv n st kv) r c ol oc hmemrest hnodup'
        hbound' (by omega) (by omega)
      rw [hcv]
      constructor
      · rintro ⟨hd, hc⟩
        obtain ⟨ihov, ihnov⟩ := ihA ⟨hd, hc⟩
        refine ⟨ihov, ?_⟩
        intro hov
        obtain ⟨e1, e2⟩ := ihnov hov
        rw [e1, e2, hp1, hp2]
        exact ⟨rfl, rfl⟩
      · intro hnd
        obtain ⟨e1, e2⟩ := ihB hnd
        rw [e1, e2, hp1, hp2]
        exact ⟨rfl, rfl⟩

/-- C3 witness: a one-cell board where the OCR reads `A` at confidence 0.8 and
the verified template gives `B` at 0.85 — disagreement below 0.9 with neither
override condition — leaves the letter and the confidence unchanged. -/
theorem C3_cross_validation_amended_witness :
    ((((0, 0) : Nat × Nat), (("A" : String), mkRat 4 5)) ∈
        [(((0, 0) : Nat × Nat), (("A" : String), mkRat 4 5))]) ∧
    (crossValidate (fun _ => ("B", mkRat 17 20)) [((0, 0), ("A", mkRat 4 5))] 1
        (["A"], [mkRat 4 5])).1.getD 0 "" = "A" ∧
    (crossValidate (fun _ => ("B", mkRat 17 20)) [((0, 0), ("A", mkRat 4 5))] 1
        (["A"], [mkRat 4 5])).2.getD 0 0 = mkRat 4 5 := by
  have h := C3_cross_validation_amended (fun _ => ("B", mkRat 17 20)) 1
    [((0, 0), ("A", mkRat 4 5))] (["A"], [mkRat 4 5]) 0 0 "A" (mkRat 4 5)
    (by decide) (by decide) (by decide) (by decide) (by decide)
  have h2 := (h.1 (by decide)).2 (by decide)
  exact ⟨by decide, h2.1, h2.2⟩

/-- Oracles realizing the C3 counterexample scenario: a calibrated template
`B` scoring 0.85 on the cell (hole count compatible), while the reader
detects `A` with confidence 0.8. -/
def c3Oracles : RecogOracles Unit Unit Unit Unit Nat where
  preprocess_cell := fun _ => ⟨0, 0, fun _ _ => 255⟩
  matchScore := fun _ _ => mkRat 17 20
  count_holes := fun _ => 2
  readtext := fun _ _ => .ok [([(0, 0), (0, 0), (0, 0), (0, 0)], "A", mkRat 4 5)]
  synthetic_templates := []

unseal List.merge List.mergeSort in
/-- C3 counterexample: on a one-cell board whose OCR detection is `A` at
confidence 0.8 and whose verified template result is `B` at score 0.85
(disagreement, OCR confidence below 0.9, neither override condition), the
claim says the confidence is raised to max(0.8, 0.85) = 0.85, but
`recognize_cells` keeps it at 0.8: the `else` branch that boosts the
confidence belongs to the outer disagreement test, not the override test. -/
theorem C3_counterexample :
    recognize_cells c3Oracles [()] (some [("B", ())]) (some ()) (mkRat 3 4)
      (some ()) 600 (some 1) = .ok ([["A"]], [[mkRat 4 5]]) ∧
    mkRat 4 5 ≠ max (mkRat 4 5) (mkRat 17 20) := by
  exact ⟨by decide, by decide⟩

/-! ## Claim C4: OCR invocation failure propagates (contrary to the spec) -/

/-- A reader oracle whose invocation always fails. -/
def failingReaderOracles : RecogOracles Unit Unit Unit Unit Nat where
  preprocess_cell := fun _ => ⟨0, 0, fun _ _ => 255⟩
  matchScore := fun _ _ => 0
  count_holes := fun _ => 0
  readtext := fun _ _ => .error 7
  synthetic_templates := []

/-- The same oracles but with a reader that succeeds with an empty detection
set. -/
def emptyReaderOracles : RecogOracles Unit Unit Unit Unit Nat where
  preprocess_cell := fun _ => ⟨0, 0, fun _ _ => 255⟩
  matchScore := fun _ _ => 0
  count_holes := fun _ => 0
  readtext := fun _ _ => .ok []
  synthetic_templates := []

unseal List.merge List.mergeSort in
/-- C4 (code divergence evidence): when the reader invocation fails,
`recognize_cells` propagates the failure (there is no handler around the
`readtext` call in `_easyocr_full_board`), whereas running the same pipeline
with an empty detection set falls through to the template tier and returns a
normal result; the two results differ, contradicting the claim that a failure
is treated exactly as an empty detection set. -/
theorem C4_ocr_failure_propagates :
    recognize_cells failingReaderOracles [()] none (some ()) (mkRat 3 4)
      (some ()) 600 (some 1) = .error 7 ∧
    recognize_cells emptyReaderOracles [()] none (some ()) (mkRat 3 4)
      (some ()) 600 (some 1) = .ok ([["?"]], [[0]]) ∧
    recognize_cells failingReaderOracles [()] none (some ()) (mkRat 3 4)
      (some ()) 600 (some 1) ≠
    recognize_cells emptyReaderOracles [()] none (some ()) (mkRat 3 4)
      (some ()) 600 (some 1) := by
  exact ⟨by decide, by decide, by decide⟩

/-! ## Claim C6: the final structural R/P sweep is authoritative -/

theorem getD_map_range {α : Type} (n r : Nat) (f : Nat → α) (d : α) :
    ((List.range n).map f).getD r d = if r < n then f r else d := by
  by_cases h : r < n
  · rw [List.getD, List.get?_eq_getElem?, List.getElem?_map, List.getElem?_range h]
    simp [h]
  · rw [List.getD, List.get?_eq_getElem?, List.getElem?_map,
      List.getElem?_eq_none (by rw [List.length_range]; omega)]
    simp [h]

theorem getD_take_drop {α : Type} (l : List α) (a nn c : Nat) (d : α) :
    ((l.drop a).take nn).getD c d =
      if c < nn ∧ a + c < l.length then l.getD (a + c) d else d := by
  by_cases h1 : c < nn
  · rw [List.getD, List.get?_eq_getElem?, List.getElem?_take_of_lt h1, List.getElem?_drop]
    by_cases h2 : a + c < l.length
    · rw [if_pos ⟨h1, h2⟩, List.getD, List.get?_eq_getElem?]
    · rw [List.getElem?_eq_none (by omega), if_neg (by tauto)]
      rfl
  · rw [List.getD, List.get?_eq_getElem?,
      List.getElem?_eq_none (le_trans (List.length_take_le _ _) (by omega)),
      if_neg (by tauto)]
    rfl

/-- After the final R/P sweep and the Q normalization, a cell holding `R` or
`P` agrees with the structural disambiguator. -/
theorem final_stages_rp (disamb : Nat → String) (l : List String) (idx : Nat)
    (x : String) (hx : x = "R" ∨ x = "P")
    (h : ((l.mapIdx (fun i s => if s = "R" ∨ s = "P" then
        (if disamb i ≠ s then disamb i else s) else s)).map
        (fun s => if s = "Q" then "QU" else s)).getD idx "" = x) :
    disamb idx = x := by
  have hxne : x ≠ "" := by
    rcases hx with rfl | rfl <;> decide
  have hsome : ((l.mapIdx (fun i s => if s = "R" ∨ s = "P" then
      (if disamb i ≠ s then disamb i else s) else s)).map
      (fun s => if s = "Q" then "QU" else s))[idx]? = some x := by
    rw [List.getD, List.get?_eq_getElem?] at h
    rcases hh : ((l.mapIdx (fun i s => if s = "R" ∨ s = "P" then
        (if disamb i ≠ s then disamb i else s) else s)).map
        (fun s => if s = "Q" then "QU" else s))[idx]? with _ | v
    · rw [hh] at h
      simp at h
      exact absurd h.symm hxne
    · rw [hh] at h
      simp at h
      rw [h]
  rw [List.getElem?_map] at hsome
  obtain ⟨y, hy, hqy⟩ := Option.map_eq_some'.mp hsome
  have hyx : y = x := by
    by_cases hq : y = "Q"
    · rw [if_pos hq] at hqy
      rcases hx with rfl | rfl <;> simp at hqy
    · rw [if_neg hq] at hqy
      exact hqy
  rw [hyx] at hy
  rw [List.getElem?_mapIdx] at hy
  obtain ⟨z, hz, hgz⟩ := Option.map_eq_some'.mp hy
  by_cases hrp : z = "R" ∨ z = "P"
  · rw [if_pos hrp] at hgz
    by_cases hne : disamb idx ≠ z
    · rw [if_pos hne] at hgz
      exact hgz
    · rw [if_neg hne] at hgz
      push_neg at hne
      rw [hne, hgz]
  · rw [if_neg hrp] at hgz
    rw [hgz] at hrp
    exact absurd hx hrp

theorem disambiguate_rp_eq_R_iff (p : ProcImg) :
    disambiguate_rp p = "R" ↔ rpFrac p > mkRat 8 100 := by
  unfold disambiguate_rp
  by_cases h : rpFrac p > mkRat 8 100
  · simp [h]
  · simp [h]

/-- `recognize_cells` succeeds exactly by applying `recogAfterDetections` to
some detection list. -/
theorem recognize_cells_ok_inv {ι ρ ω τ ε : Type} [Inhabited ι]
    (O : RecogOracles ι ρ ω τ ε) (cells : List ι)
    (templates : Option (List (String × τ))) (easyocr_reader : Option ρ)
    (confidence_threshold : ℚ) (warped_gray : Option ω) (warped_shape0 : ℚ)
    (grid_size : Option Nat) (bc : List (List String) × List (List ℚ))
    (hok : recognize_cells O cells templates easyocr_reader confidence_threshold
      warped_gray warped_shape0 grid_size = .ok bc) :
    ∃ dets, bc = recogAfterDetections O cells templates
      (gridN grid_size cells.length) dets := by
  unfold recognize_cells at hok
  dsimp only at hok
  rcases easyocr_reader with _ | reader
  · exact ⟨[], (Except.ok.inj hok).symm⟩
  · rcases warped_gray with _ | wg
    · exact ⟨[], (Except.ok.inj hok).symm⟩
    · dsimp only at hok
      rcases hcall : easyocr_full_board O warped_shape0 (gridN grid_size cells.length)
          reader wg with e | dets
      · rw [hcall] at hok
        simp at hok
      · rw [hcall] at hok
        exact ⟨dets, (Except.ok.inj hok).symm⟩

/-- C6: in the letter grid returned by `recognize_cells`, every cell classified
`R` satisfies the structural check (the lower-right dark-pixel ratio of its
preprocessed image exceeds 0.08) and every cell classified `P` fails it,
regardless of which pass produced the letter: the final sweep is
authoritative. -/
theorem C6_rp_structural_final {ι ρ ω τ ε : Type} [Inhabited ι]
    (O : RecogOracles ι ρ ω τ ε) (cells : List ι)
    (templates : Option (List (String × τ))) (easyocr_reader : Option ρ)
    (confidence_threshold : ℚ) (warped_gray : Option ω) (warped_shape0 : ℚ)
    (grid_size : Option Nat) (board : List (List String))
    (confs : List (List ℚ)) (r c : Nat)
    (hok : recognize_cells O cells templates easyocr_reader confidence_threshold
      warped_gray warped_shape0 grid_size = .ok (board, confs)) :
    ((board.getD r []).getD c "" = "R" →
      rpFrac (O.preprocess_cell
        (cells.getD (r * gridN grid_size cells.length + c) default)) > mkRat 8 100) ∧
    ((board.getD r []).getD c "" = "P" →
      ¬(rpFrac (O.preprocess_cell
        (cells.getD (r * gridN grid_size cells.length + c) default)) > mkRat 8 100)) := by
  obtain ⟨dets, hbc⟩ := recognize_cells_ok_inv O cells templates easyocr_reader
    confidence_threshold warped_gray warped_shape0 grid_size (board, confs) hok
  have hboard : board = (recogAfterDetections O cells templates
      (gridN grid_size cells.length) dets).1 := congrArg Prod.fst hbc
  have key : ∀ x : String, x = "R" ∨ x = "P" →
      (board.getD r []).getD c "" = x →
      disambiguate_rp (O.preprocess_cell
        (cells.getD (r * gridN grid_size cells.length + c) default)) = x := by
    intro x hx hB
    rw [hboard] at hB
    unfold recogAfterDetections at hB
    dsimp only at hB
    rw [getD_map_range] at hB
    by_cases hr : r < gridN grid_size cells.length
    · rw [if_pos hr, getD_take_drop] at hB
      split at hB
      · exact final_stages_rp _ _ _ x hx hB
      · have hxne : x ≠ "" := by
          rcases hx with rfl | rfl <;> decide
        exact absurd hB.symm hxne
    · rw [if_neg hr] at hB
      have hxne : x ≠ "" := by
        rcases hx with rfl | rfl <;> decide
      have hB' : ("" : String) = x := by
        simpa [List.getD] using hB
      exact absurd hB'.symm hxne
  constructor
  · intro hB
    exact (disambiguate_rp_eq_R_iff _).mp (key "R" (Or.inl rfl) hB)
  · intro hB
    have hd := key "P" (Or.inr rfl) hB
    intro hfrac
    have := (disambiguate_rp_eq_R_iff _).mpr hfrac
    rw [hd] at this
    exact absurd this (by decide)

/-- Oracles for the C6 witness: one calibrated template `R` that matches
perfectly, on a cell whose preprocessed image has half of its dark pixels in
the lower-right quadrant. -/
def c6Oracles : RecogOracles Unit Unit Unit Unit Nat where
  preprocess_cell := fun _ =>
    ⟨2, 2, fun r c => if (r = 1 ∧ c = 1) ∨ (r = 0 ∧ c = 0) then 0 else 255⟩
  matchScore := fun _ _ => 1
  count_holes := fun _ => 1
  readtext := fun _ _ => .ok []
  synthetic_templates := []

unseal List.merge List.mergeSort in
theorem C6_rp_structural_final_witness :
    recognize_cells c6Oracles [()] (some [("R", ())]) none (mkRat 3 4)
      none 600 (some 1) = .ok ([["R"]], [[1]]) ∧
    rpFrac (c6Oracles.preprocess_cell
      (([()] : List Unit).getD (0 * gridN (some 1) ([()] : List Unit).length + 0) default))
      > mkRat 8 100 := by
  have h := C6_rp_structural_final c6Oracles [()] (some [("R", ())]) none (mkRat 3 4)
    none 600 (some 1) [["R"]] [[1]] 0 0 (by decide)
  exact ⟨by decide, h.1 (by decide)⟩

theorem C5_order_corners_extrema_witness :
    ([((0 : ℚ), (0 : ℚ)), (3, 0), (3, 3), (0, 3)].length = 4) ∧
    ((∀ p ∈ [((0 : ℚ), (0 : ℚ)), (3, 0), (3, 3), (0, 3)],
        ((order_corners [((0 : ℚ), (0 : ℚ)), (3, 0), (3, 3), (0, 3)]).getD 0 (0, 0)).1 +
          ((order_corners [((0 : ℚ), (0 : ℚ)), (3, 0), (3, 3), (0, 3)]).getD 0 (0, 0)).2
          ≤ p.1 + p.2) ∧
      (∀ p ∈ [((0 : ℚ), (0 : ℚ)), (3, 0), (3, 3), (0, 3)],
        ((order_corners [((0 : ℚ), (0 : ℚ)), (3, 0), (3, 3), (0, 3)]).getD 1 (0, 0)).2 -
          ((order_corners [((0 : ℚ), (0 : ℚ)), (3, 0), (3, 3), (0, 3)]).getD 1 (0, 0)).1
          ≤ p.2 - p.1) ∧
      (∀ p ∈ [((0 : ℚ), (0 : ℚ)), (3, 0), (3, 3), (0, 3)],
        p.1 + p.2 ≤
          ((order_corners [((0 : ℚ), (0 : ℚ)), (3, 0), (3, 3), (0, 3)]).getD 2 (0, 0)).1 +
          ((order_corners [((0 : ℚ), (0 : ℚ)), (3, 0), (3, 3), (0, 3)]).getD 2 (0, 0)).2) ∧
      (∀ p ∈ [((0 : ℚ), (0 : ℚ)), (3, 0), (3, 3), (0, 3)],
        p.2 - p.1 ≤
          ((order_corners [((0 : ℚ), (0 : ℚ)), (3, 0), (3, 3), (0, 3)]).getD 3 (0, 0)).2 -
          ((order_corners [((0 : ℚ), (0 : ℚ)), (3, 0), (3, 3), (0, 3)]).getD 3 (0, 0)).1) ∧
      (∀ i, i < 4 →
        (order_corners [((0 : ℚ), (0 : ℚ)), (3, 0), (3, 3), (0, 3)]).getD i (0, 0) ∈
          [((0 : ℚ), (0 : ℚ)), (3, 0), (3, 3), (0, 3)])) :=
  ⟨by decide, C5_order_corners_extrema [((0 : ℚ), (0 : ℚ)), (3, 0), (3, 3), (0, 3)] (by decide)⟩

/-! ## Specification-side definitions for the word search claims -/

/-- The letter tokens of the data model: `A`-`Z` and the compound `QU`. -/
def letterTokens : List String :=
  ["A", "B", "C", "D", "E", "F", "G", "H", "I", "J", "K", "L", "M",
   "N", "O", "P", "QU", "R", "S", "T", "U", "V", "W", "X", "Y", "Z"]

/-- A well-formed board for `solve`: an `n` by `n` matrix of letter tokens
or `?`. -/
def boardWF (board : List (List String)) (n : Nat) : Prop :=
  board.length = n ∧ (∀ row ∈ board, row.length = n) ∧
  ∀ row ∈ board, ∀ t ∈ row, t ∈ letterTokens ∨ t = "?"

/-- The token at a (row, col) position. -/
def cellToken (board : List (List String)) (q : Nat × Nat) : String :=
  (board.getD q.1 []).getD q.2 ""

/-- 8-direction (Moore) adjacency of distinct grid positions. -/
def adj8 (a b : Nat × Nat) : Prop :=
  a ≠ b ∧ ((a.1 : Int) - (b.1 : Int)).natAbs ≤ 1 ∧ ((a.2 : Int) - (b.2 : Int)).natAbs ≤ 1

/-- `p` is a simple 8-adjacency path on the `n` by `n` board avoiding `?`
cells whose tokens concatenate to `w`. -/
def SpellPath (board : List (List String)) (n : Nat) (w : String)
    (p : List (Nat × Nat)) : Prop :=
  p ≠ [] ∧ p.Nodup ∧ (∀ q ∈ p, q.1 < n ∧ q.2 < n) ∧ List.Chain' adj8 p ∧
  (∀ q ∈ p, cellToken board q ≠ "?") ∧
  String.join (p.map (cellToken board)) = w

/-- `w` is spellable on the board by some simple path. -/
def Spellable (board : List (List String)) (n : Nat) (w : String) : Prop :=
  ∃ p, SpellPath board n w p

/-! ### Basic facts about tokens and the flattened cell list -/

theorem token_pyUpper {t : String} (h : t ∈ letterTokens ∨ t = "?") : pyUpper t = t := by
  rcases h with h | rfl
  · fin_cases h <;> decide
  · decide

theorem token_data_ne_nil {t : String} (h : t ∈ letterTokens) : t.data ≠ [] := by
  fin_cases h <;> decide

theorem token_ne_qmark {t : String} (h : t ∈ letterTokens) : t ≠ "?" := by
  fin_cases h <;> decide

theorem cellChars_getD (board : List (List String)) (n idx : Nat) :
    (cellChars board n).getD idx "" =
      if idx < n * n then pyUpper (cellToken board (idx / n, idx % n)) else "" := by
  unfold cellChars
  rw [getD_map_range]
  rfl

theorem boardWF_token {board : List (List String)} {n : Nat} (h : boardWF board n)
    {r c : Nat} (hr : r < n) (hc : c < n) :
    cellToken board (r, c) ∈ letterTokens ∨ cellToken board (r, c) = "?" := by
  obtain ⟨hlen, hrow, htok⟩ := h
  have hrb : r < board.length := by omega
  have hrowmem : board.getD r [] ∈ board := by
    rw [getD_eq_get _ _ hrb]
    exact List.get_mem _ _ _
  have hcl : c < (board.getD r []).length := by
    rw [hrow _ hrowmem]
    exact hc
  have hmem : (board.getD r []).getD c "" ∈ board.getD r [] := by
    rw [getD_eq_get _ _ hcl]
    exact List.get_mem _ _ _
  exact htok _ hrowmem _ hmem

/-- On a well-formed board the flattened cell value is the raw token. -/
theorem cellChars_getD_WF {board : List (List String)} {n : Nat} (h : boardWF board n)
    {idx : Nat} (hidx : idx < n * n) :
    (cellChars board n).getD idx "" = cellToken board (idx / n, idx % n) := by
  rw [cellChars_getD, if_pos hidx]
  have hn : 0 < n := by
    by_contra hn
    have : n = 0 := by omega
    rw [this] at hidx
    omega
  have hr : idx / n < n := Nat.div_lt_of_lt_mul (by omega)
  have hc : idx % n < n := Nat.mod_lt _ hn
  exact token_pyUpper (boardWF_token h hr hc)

/-! ### Bitmask facts -/

theorem testBit_one_shiftLeft (j i : Nat) : (1 <<< j).testBit i = decide (j = i) := by
  rw [Nat.shiftLeft_eq, one_mul]
  by_cases h : j = i
  · subst h
    simp [Nat.testBit_two_pow_self]
  · simp [Nat.testBit_two_pow_of_ne h, h]

theorem and_shift_eq_zero_iff (v j : Nat) :
    v &&& (1 <<< j) = 0 ↔ v.testBit j = false := by
  constructor
  · intro h
    have := congrArg (fun m => Nat.testBit m j) h
    simp only [Nat.testBit_and, testBit_one_shiftLeft, Nat.zero_testBit] at this
    simpa using this
  · intro h
    apply Nat.eq_of_testBit_eq
    intro i
    simp only [Nat.testBit_and, testBit_one_shiftLeft, Nat.zero_testBit]
    by_cases hij : j = i
    · subst hij
      simp [h]
    · simp [hij]

theorem testBit_or_shift (v j i : Nat) :
    (v ||| (1 <<< j)).testBit i = (v.testBit i || decide (j = i)) := by
  rw [Nat.testBit_or, testBit_one_shiftLeft]

/-! ### The neighbor list and 8-adjacency -/

theorem mem_neighbors {n idx : Nat} (hidx : idx < n * n) (j : Nat) :
    j ∈ neighbors n idx ↔ j < n * n ∧ adj8 (idx / n, idx % n) (j / n, j % n) := by
  have hn : 0 < n := by
    rcases Nat.eq_zero_or_pos n with rfl | h
    · omega
    · exact h
  have hR : idx / n < n := Nat.div_lt_of_lt_mul (by omega)
  have hC : idx % n < n := Nat.mod_lt _ hn
  unfold neighbors
  simp only [List.mem_flatMap, List.mem_filterMap]
  constructor
  · rintro ⟨dr, hdr, dc, hdc, hsome⟩
    have hdr3 : dr = -1 ∨ dr = 0 ∨ dr = 1 := by
      simp only [List.mem_cons, List.not_mem_nil, or_false] at hdr
      tauto
    have hdc3 : dc = -1 ∨ dc = 0 ∨ dc = 1 := by
      simp only [List.mem_cons, List.not_mem_nil, or_false] at hdc
      tauto
    by_cases hzero : dr = 0 ∧ dc = 0
    · rw [if_pos hzero] at hsome
      exact absurd hsome (by simp)
    · rw [if_neg hzero] at hsome
      by_cases hbnd : 0 ≤ ((idx / n : Nat) : Int) + dr ∧ ((idx / n : Nat) : Int) + dr < (n : Int) ∧
          0 ≤ ((idx % n : Nat) : Int) + dc ∧ ((idx % n : Nat) : Int) + dc < (n : Int)
      · rw [if_pos hbnd] at hsome
        have hj : ((((idx / n : Nat) : Int) + dr) * (n : Int) +
            (((idx % n : Nat) : Int) + dc)).toNat = j := Option.some.inj hsome
        obtain ⟨hb1, hb2, hb3, hb4⟩ := hbnd
        set nr : Int := ((idx / n : Nat) : Int) + dr with hnr
        set nc : Int := ((idx % n : Nat) : Int) + dc with hnc
        have hnn : (0 : Int) ≤ nr * (n : Int) + nc :=
          add_nonneg (mul_nonneg hb1 (Int.natCast_nonneg n)) hb3
        have hjeq : (j : Int) = nr * (n : Int) + nc := by
          rw [← hj, Int.toNat_of_nonneg hnn]
        have hnr0 : (nr.toNat : Int) = nr := Int.toNat_of_nonneg hb1
        have hnc0 : (nc.toNat : Int) = nc := Int.toNat_of_nonneg hb3
        have hcastv : ((nr.toNat * n + nc.toNat : Nat) : Int) = nr * (n : Int) + nc := by
          push_cast [hnr0, hnc0]
          ring
        have hjNat : j = nr.toNat * n + nc.toNat := by
          have := hjeq.trans hcastv.symm
          exact_mod_cast this
        have hncn : nc.toNat < n := by omega
        have hnrn : nr.toNat < n := by omega
        have hjNat' : j = nc.toNat + nr.toNat * n := by omega
        have hjdiv : j / n = nr.toNat := by
          rw [hjNat', Nat.add_mul_div_right _ _ hn, Nat.div_eq_of_lt hncn, Nat.zero_add]
        have hjmod : j % n = nc.toNat := by
          rw [hjNat', Nat.add_mul_mod_self_right, Nat.mod_eq_of_lt hncn]
        have hjlt : j < n * n := by
          have hmul : (nr.toNat + 1) * n ≤ n * n := by
            rw [mul_comm n n]
            exact Nat.mul_le_mul_right n hnrn
          rw [Nat.succ_mul] at hmul
          omega
        refine ⟨hjlt, ?_, ?_, ?_⟩
        · intro hpair
          have h1 : idx / n = j / n := congrArg Prod.fst hpair
          have h2 : idx % n = j % n := congrArg Prod.snd hpair
          rw [hjdiv] at h1
          rw [hjmod] at h2
          apply hzero
          constructor <;> omega
        · simp only
          rw [hjdiv]
          omega
        · simp only
          rw [hjmod]
          omega
      · rw [if_neg hbnd] at hsome
        exact absurd hsome (by simp)
  · rintro ⟨hjlt, hne, habs1, habs2⟩
    have habs1' : (((idx / n : Nat) : Int) - ((j / n : Nat) : Int)).natAbs ≤ 1 := habs1
    have habs2' : (((idx % n : Nat) : Int) - ((j % n : Nat) : Int)).natAbs ≤ 1 := habs2
    have hjR : j / n < n := Nat.div_lt_of_lt_mul (by omega)
    have hjC : j % n < n := Nat.mod_lt _ hn
    refine ⟨((j / n : Nat) : Int) - ((idx / n : Nat) : Int), ?_,
      ((j % n : Nat) : Int) - ((idx % n : Nat) : Int), ?_, ?_⟩
    · simp only [List.mem_cons, List.not_mem_nil, or_false]
      revert habs1'
      generalize (idx / n : Nat) = A
      generalize (j / n : Nat) = B
      intro habs1'
      omega
    · simp only [List.mem_cons, List.not_mem_nil, or_false]
      revert habs2'
      generalize (idx % n : Nat) = A
      generalize (j % n : Nat) = B
      intro habs2'
      omega
    · clear habs1 habs2
      have hnz : ¬(((j / n : Nat) : Int) - ((idx / n : Nat) : Int) = 0 ∧
          ((j % n : Nat) : Int) - ((idx % n : Nat) : Int) = 0) := by
        rintro ⟨h1, h2⟩
        apply hne
        have e1 : idx / n = j / n := by
          have h1' := sub_eq_zero.mp h1
          exact_mod_cast h1'.symm
        have e2 : idx % n = j % n := by
          have h2' := sub_eq_zero.mp h2
          exact_mod_cast h2'.symm
        rw [e1, e2]
      rw [if_neg hnz]
      have hge1 : (0 : Int) ≤ ((j / n : Nat) : Int) := Int.natCast_nonneg _
      have hlt1 : ((j / n : Nat) : Int) < (n : Int) := by exact_mod_cast hjR
      have hge2 : (0 : Int) ≤ ((j % n : Nat) : Int) := Int.natCast_nonneg _
      have hlt2 : ((j % n : Nat) : Int) < (n : Int) := by exact_mod_cast hjC
      have hb : 0 ≤ ((idx / n : Nat) : Int) +
            (((j / n : Nat) : Int) - ((idx / n : Nat) : Int)) ∧
          ((idx / n : Nat) : Int) +
            (((j / n : Nat) : Int) - ((idx / n : Nat) : Int)) < (n : Int) ∧
          0 ≤ ((idx % n : Nat) : Int) +
            (((j % n : Nat) : Int) - ((idx % n : Nat) : Int)) ∧
          ((idx % n : Nat) : Int) +
            (((j % n : Nat) : Int) - ((idx % n : Nat) : Int)) < (n : Int) :=
        ⟨by linarith, by linarith, by linarith, by linarith⟩
      rw [if_pos hb]
      have hsimp1 : (((idx / n : Nat) : Int) +
          (((j / n : Nat) : Int) - ((idx / n : Nat) : Int))) = ((j / n : Nat) : Int) := by
        ring
      have hsimp2 : (((idx % n : Nat) : Int) +
          (((j % n : Nat) : Int) - ((idx % n : Nat) : Int))) = ((j % n : Nat) : Int) := by
        ring
      rw [hsimp1, hsimp2]
      congr 1
      have hcast : ((j / n : Nat) : Int) * (n : Int) + ((j % n : Nat) : Int) =
          ((j / n * n + j % n : Nat) : Int) := by
        push_cast
        ring
      rw [hcast, Int.toNat_natCast, Nat.mul_comm]
      exact Nat.div_add_mod j n

/-! ### The visited-mask chain structure followed by the DFS -/

/-- `chainFrom n visited idx rest` holds when `rest` continues a DFS
exploration from `idx`: each step moves to an unvisited neighbor and sets
its bit, exactly as the recursion in `dfs` does. -/
def chainFrom (n : Nat) : Nat → Nat → List Nat → Prop
  | _, _, [] => True
  | visited, idx, j :: rest =>
    j ∈ neighbors n idx ∧ visited &&& (1 <<< j) = 0 ∧
    chainFrom n (visited ||| (1 <<< j)) j rest

theorem chainFrom_unvisited (n : Nat) :
    ∀ (rest : List Nat) (visited idx : Nat), chainFrom n visited idx rest →
      ∀ j ∈ rest, visited.testBit j = false := by
  intro rest
  induction rest with
  | nil => intro visited idx _ j hj; simp at hj
  | cons j' rest' ih =>
    intro visited idx hch j hj
    obtain ⟨hnb, hbit, hch'⟩ := hch
    rcases List.mem_cons.mp hj with rfl | hj
    · exact (and_shift_eq_zero_iff _ _).mp hbit
    · have := ih _ _ hch' j hj
      rw [testBit_or_shift] at this
      rcases Bool.or_eq_false_iff.mp this with ⟨h1, _⟩
      exact h1

theorem chainFrom_nodup (n : Nat) :
    ∀ (rest : List Nat) (visited idx : Nat), visited.testBit idx = true →
      chainFrom n visited idx rest → (idx :: rest).Nodup := by
  intro rest
  induction rest with
  | nil => intro visited idx _ _; simp
  | cons j rest' ih =>
    intro visited idx hvidx hch
    obtain ⟨hnb, hbit, hch'⟩ := hch
    have hbj : visited.testBit j = false := (and_shift_eq_zero_iff _ _).mp hbit
    have hvj : (visited ||| (1 <<< j)).testBit j = true := by
      rw [testBit_or_shift]
      simp
    have hrest := ih _ _ hvj hch'
    have hidxj : idx ≠ j := by
      intro h
      rw [h] at hvidx
      rw [hvidx] at hbj
      exact absurd hbj (by decide)
    have hidxnot : idx ∉ rest' := by
      intro h
      have := chainFrom_unvisited n rest' _ _ hch' idx h
      rw [testBit_or_shift, hvidx] at this
      simp at this
    rw [List.nodup_cons]
    refine ⟨?_, hrest⟩
    intro hmem
    rcases List.mem_cons.mp hmem with h | h
    · exact hidxj h
    · exact hidxnot h

theorem chainFrom_spec (n : Nat) :
    ∀ (rest : List Nat) (visited idx : Nat), idx < n * n →
      chainFrom n visited idx rest →
      List.Chain' adj8 ((idx :: rest).map (fun i => (i / n, i % n))) ∧
      (∀ j ∈ idx :: rest, j < n * n) := by
  intro rest
  induction rest with
  | nil =>
    intro visited idx hidx _
    refine ⟨by simp, ?_⟩
    intro j hj
    rcases List.mem_cons.mp hj with rfl | hj
    · exact hidx
    · simp at hj
  | cons j rest' ih =>
    intro visited idx hidx hch
    obtain ⟨hnb, hbit, hch'⟩ := hch
    obtain ⟨hjlt, hadj⟩ := (mem_neighbors hidx j).mp hnb
    obtain ⟨ihchain, ihbound⟩ := ih _ _ hjlt hch'
    constructor
    · simp only [List.map_cons] at ihchain ⊢
      exact List.Chain'.cons hadj ihchain
    · intro k hk
      rcases List.mem_cons.mp hk with rfl | hk
      · exact hidx
      · exact ihbound k hk

theorem chain_to_chainFrom (n : Nat) :
    ∀ (l : List Nat) (visited idx : Nat),
      (∀ j, visited.testBit j = true → j ∉ l) →
      List.Chain' (fun a b => b ∈ neighbors n a) (idx :: l) →
      l.Nodup →
      chainFrom n visited idx l := by
  intro l
  induction l with
  | nil => intro visited idx _ _ _; trivial
  | cons j rest ih =>
    intro visited idx hfresh hchain hnd
    rw [List.chain'_cons] at hchain
    obtain ⟨hnb, hchain'⟩ := hchain
    rw [List.nodup_cons] at hnd
    refine ⟨hnb, ?_, ?_⟩
    · rw [and_shift_eq_zero_iff]
      cases hbit : visited.testBit j
      · rfl
      · exact absurd (List.mem_cons_self _ _) (hfresh j hbit)
    · apply ih _ _ _ hchain' hnd.2
      intro k hk
      rw [testBit_or_shift] at hk
      rcases Bool.or_eq_true_iff.mp hk with h | h
      · intro hmem
        exact hfresh k h (List.mem_cons_of_mem _ hmem)
      · have : j = k := of_decide_eq_true h
        rw [← this]
        exact hnd.1

/-! ### Trie walking and word concatenation -/

theorem walk_append (t : TrieNode) (l1 l2 : List Char) :
    t.walk (l1 ++ l2) = (t.walk l1).bind (fun u => u.walk l2) := by
  induction l1 generalizing t with
  | nil => rfl
  | cons c cs ih =>
    show TrieNode.walk t (c :: (cs ++ l2)) = _
    cases hc : t.child c with
    | none => simp [TrieNode.walk, hc]
    | some u => simp [TrieNode.walk, hc, ih u]

theorem walk_cons_children_ne {t t' : TrieNode} {c : Char} {l : List Char}
    (h : t.walk (c :: l) = some t') : t.children ≠ [] := by
  intro hnil
  unfold TrieNode.walk at h
  unfold TrieNode.child at h
  rw [hnil] at h
  simp [List.find?] at h

theorem data_foldl_append (l : List String) :
    ∀ init : String, (l.foldl (fun a b => a ++ b) init).data =
      init.data ++ (l.map String.data).flatten := by
  induction l with
  | nil => intro init; simp
  | cons s rest ih =>
    intro init
    show ((rest.foldl (fun a b => a ++ b) (init ++ s))).data = _
    rw [ih (init ++ s), String.data_append]
    simp [List.append_assoc]

theorem data_join (l : List String) :
    (String.join l).data = (l.map String.data).flatten := by
  show ((l.foldl (fun a b => a ++ b) "").data) = _
  rw [data_foldl_append]
  rfl

/-! ### DFS soundness -/

theorem dfs_sound (cells : List String) (n : Nat) :
    ∀ (fuel idx : Nat) (node : TrieNode) (path : List String) (visited start_idx : Nat)
      (w : String) (s : Nat),
      (w, s) ∈ dfs cells n fuel idx node path visited start_idx →
      s = start_idx ∧
      ∃ rest, chainFrom n visited idx rest ∧
        (∀ j ∈ idx :: rest, cells.getD j "" ≠ "?") ∧
        (∃ t', node.walk (((idx :: rest).map (fun j => (cells.getD j "").data)).flatten)
            = some t' ∧ t'.wordHere = true) ∧
        w = String.join (path ++ (idx :: rest).map (fun j => cells.getD j "")) := by
  intro fuel
  induction fuel with
  | zero =>
    intro idx node path visited start_idx w s h
    simp [dfs] at h
  | succ fuel ih =>
    intro idx node path visited start_idx w s h
    unfold dfs at h
    by_cases hq : cells.getD idx "" = "?"
    · rw [if_pos hq] at h
      simp at h
    · rw [if_neg hq] at h
      rcases hwalk : node.walk (cells.getD idx "").data with _ | current
      · rw [hwalk] at h
        simp at h
      · rw [hwalk] at h
        rcases List.mem_append.mp h with hhere | hrec
        · -- the record was emitted at this node
          have hw : current.wordHere = true ∧
              (w, s) = (String.join (path ++ [cells.getD idx ""]), start_idx) := by
            by_cases hword : current.wordHere
            · rw [if_pos hword] at hhere
              exact ⟨hword, List.mem_singleton.mp hhere⟩
            · rw [if_neg hword] at hhere
              simp at hhere
          obtain ⟨hword, heq⟩ := hw
          have hweq : w = String.join (path ++ [cells.getD idx ""]) := congrArg Prod.fst heq
          have hseq : s = start_idx := congrArg Prod.snd heq
          refine ⟨hseq, [], trivial, ?_, ?_, ?_⟩
          · intro j hj
            rcases List.mem_cons.mp hj with rfl | hj
            · exact hq
            · simp at hj
          · refine ⟨current, ?_, hword⟩
            simp only [List.map_cons, List.map_nil, List.flatten]
            rw [List.append_nil]
            exact hwalk
          · exact hweq
        · -- the record came from a recursive call
          by_cases hch : !current.children.isEmpty
          · rw [if_pos hch] at hrec
            rcases List.mem_flatMap.mp hrec with ⟨nidx, hnidx, hmem⟩
            by_cases hvis : visited &&& (1 <<< nidx) ≠ 0
            · rw [if_pos hvis] at hmem
              simp at hmem
            · rw [if_neg hvis] at hmem
              obtain ⟨hs, rest, hchain, hnoq, ⟨t', hwalkrest, ht'⟩, hweq⟩ :=
                ih nidx current (path ++ [cells.getD idx ""])
                  (visited ||| (1 <<< nidx)) start_idx w s hmem
              refine ⟨hs, nidx :: rest, ?_, ?_, ?_, ?_⟩
              · exact ⟨hnidx, by omega, hchain⟩
              · intro j hj
                rcases List.mem_cons.mp hj with rfl | hj
                · exact hq
                · exact hnoq j hj
              · refine ⟨t', ?_, ht'⟩
                simp only [List.map_cons, List.flatten_cons]
                rw [walk_append, hwalk]
                simpa using hwalkrest
              · rw [hweq]
                congr 1
                simp [List.append_assoc]
          · rw [if_neg hch] at hrec
            simp at hrec

/-! ### DFS completeness -/

theorem dfs_complete (cells : List String) (n : Nat) :
    ∀ (rest : List Nat) (fuel idx : Nat) (node : TrieNode) (path : List String)
      (visited start_idx : Nat) (t' : TrieNode),
      chainFrom n visited idx rest →
      (∀ j ∈ idx :: rest, cells.getD j "" ≠ "?") →
      (∀ j ∈ idx :: rest, (cells.getD j "").data ≠ []) →
      node.walk (((idx :: rest).map (fun j => (cells.getD j "").data)).flatten)
        = some t' →
      t'.wordHere = true →
      rest.length < fuel →
      (String.join (path ++ (idx :: rest).map (fun j => cells.getD j "")), start_idx)
        ∈ dfs cells n fuel idx node path visited start_idx := by
  intro rest
  induction rest with
  | nil =>
    intro fuel idx node path visited start_idx t' hchain hnoq hne hwalk hword hfuel
    obtain ⟨fuel', rfl⟩ : ∃ fuel', fuel = fuel' + 1 := ⟨fuel - 1, by omega⟩
    unfold dfs
    rw [if_neg (hnoq idx (List.mem_cons_self _ _))]
    simp only [List.map_cons, List.map_nil, List.flatten] at hwalk
    rw [List.append_nil] at hwalk
    rw [hwalk]
    dsimp only
    rw [if_pos hword]
    exact List.mem_append_left _ (List.mem_singleton.mpr rfl)
  | cons j rest' ih =>
    intro fuel idx node path visited start_idx t' hchain hnoq hne hwalk hword hfuel
    obtain ⟨fuel', rfl⟩ : ∃ fuel', fuel = fuel' + 1 := ⟨fuel - 1, by omega⟩
    obtain ⟨hnb, hbit, hchain'⟩ := hchain
    unfold dfs
    rw [if_neg (hnoq idx (List.mem_cons_self _ _))]
    simp only [List.map_cons, List.flatten_cons] at hwalk
    rw [walk_append] at hwalk
    rcases hmid : node.walk (cells.getD idx "").data with _ | current
    · rw [hmid] at hwalk
      exact Option.noConfusion hwalk
    · rw [hmid] at hwalk
      replace hwalk : current.walk ((cells.getD j "").data ++
          ((rest'.map (fun k => (cells.getD k "").data)).flatten)) = some t' := hwalk
      have hne' : (cells.getD j "").data ≠ [] :=
        hne j (List.mem_cons_of_mem _ (List.mem_cons_self _ _))
      have hchildren : current.children ≠ [] := by
        rcases hd : (cells.getD j "").data with _ | ⟨c0, cs0⟩
        · exact absurd hd hne'
        · have := hwalk
          rw [hd] at this
          rw [show (c0 :: cs0) ++ (rest'.map (fun k => (cells.getD k "").data)).flatten
            = c0 :: (cs0 ++ (rest'.map (fun k => (cells.getD k "").data)).flatten)
            from rfl] at this
          exact walk_cons_children_ne this
      dsimp only
      apply List.mem_append_right
      rw [if_pos (by simpa using hchildren)]
      apply List.mem_flatMap.mpr
      refine ⟨j, hnb, ?_⟩
      rw [if_neg (by omega)]
      have hword' := ih fuel' j current (path ++ [cells.getD idx ""])
        (visited ||| (1 <<< j)) start_idx t' hchain'
        (fun k hk => hnoq k (List.mem_cons_of_mem _ hk))
        (fun k hk => hne k (List.mem_cons_of_mem _ hk))
        (by simp only [List.map_cons, List.flatten_cons]; exact hwalk) hword
        (by simpa using hfuel)
      have hjoin : String.join ((path ++ [cells.getD idx ""]) ++
          (j :: rest').map (fun k => cells.getD k "")) =
          String.join (path ++ (idx :: j :: rest').map (fun k => cells.getD k "")) := by
        congr 1
        simp [List.append_assoc]
      rw [hjoin] at hword'
      exact hword'

/-! ### Characterization of the search records -/

theorem pair_idx_lt {n : Nat} {q : Nat × Nat} (h1 : q.1 < n) (h2 : q.2 < n) :
    q.1 * n + q.2 < n * n := by
  have hmul : (q.1 + 1) * n ≤ n * n := by
    rw [mul_comm n n]
    exact Nat.mul_le_mul_right n h1
  rw [Nat.succ_mul] at hmul
  omega

theorem pair_idx_div {n : Nat} {q : Nat × Nat} (h2 : q.2 < n) :
    (q.1 * n + q.2) / n = q.1 ∧ (q.1 * n + q.2) % n = q.2 := by
  have hn : 0 < n := by omega
  constructor
  · rw [show q.1 * n + q.2 = q.2 + q.1 * n by omega,
      Nat.add_mul_div_right _ _ hn, Nat.div_eq_of_lt h2, Nat.zero_add]
  · rw [show q.1 * n + q.2 = q.2 + q.1 * n by omega,
      Nat.add_mul_mod_self_right, Nat.mod_eq_of_lt h2]

theorem idx_recompose {n idx : Nat} (h : idx < n * n) :
    (idx / n) * n + idx % n = idx := by
  rw [mul_comm]
  exact Nat.div_add_mod idx n

theorem nodup_length_le {l : List Nat} {m : Nat} (hnd : l.Nodup) (hb : ∀ x ∈ l, x < m) :
    l.length ≤ m := by
  classical
  have h1 : l.length = l.toFinset.card := (List.toFinset_card_of_nodup hnd).symm
  rw [h1]
  have h2 : l.toFinset ⊆ Finset.range m := by
    intro x hx
    rw [List.mem_toFinset] at hx
    exact Finset.mem_range.mpr (hb x hx)
  calc l.toFinset.card ≤ (Finset.range m).card := Finset.card_le_card h2
    _ = m := Finset.card_range m

theorem chain_adj8_to_neighbors (n : Nat) :
    ∀ (p : List (Nat × Nat)), (∀ q ∈ p, q.1 < n ∧ q.2 < n) → List.Chain' adj8 p →
      List.Chain' (fun a b => b ∈ neighbors n a) (p.map (fun q => q.1 * n + q.2)) := by
  intro p
  induction p with
  | nil => intro _ _; simp
  | cons q1 p' ih =>
    intro hb hch
    cases p' with
    | nil => simp
    | cons q2 p'' =>
      rw [List.chain'_cons] at hch
      obtain ⟨hadj, hch'⟩ := hch
      have hb1 := hb q1 (List.mem_cons_self _ _)
      have hb2 := hb q2 (List.mem_cons_of_mem _ (List.mem_cons_self _ _))
      simp only [List.map_cons]
      rw [List.chain'_cons]
      refine ⟨?_, ?_⟩
      · have hlt1 : q1.1 * n + q1.2 < n * n := pair_idx_lt hb1.1 hb1.2
        have hlt2 : q2.1 * n + q2.2 < n * n := pair_idx_lt hb2.1 hb2.2
        rw [mem_neighbors hlt1]
        obtain ⟨hd1, hm1⟩ := pair_idx_div (n := n) (q := q1) hb1.2
        obtain ⟨hd2, hm2⟩ := pair_idx_div (n := n) (q := q2) hb2.2
        refine ⟨hlt2, ?_⟩
        rw [hd1, hm1, hd2, hm2]
        exact hadj
      · have := ih (fun q hq => hb q (List.mem_cons_of_mem _ hq)) hch'
        simpa using this

theorem containsWord_iff (t : TrieNode) (w : String) :
    t.containsWord w = true ↔ ∃ u, t.walk w.data = some u ∧ u.wordHere = true := by
  unfold TrieNode.containsWord
  cases h : t.walk w.data with
  | none => simp
  | some u => simp

theorem solveRecords_mem (board : List (List String)) (n : Nat) (trie : Trie)
    (hWF : boardWF board n) (w : String) (s : Nat) :
    (w, s) ∈ solveRecords board n trie ↔
      s < n * n ∧ trie.root.containsWord w = true ∧
      ∃ p, SpellPath board n w p ∧ p.head? = some (s / n, s % n) := by
  have hn0 : ∀ idx : Nat, idx < n * n → 0 < n := by
    intro idx h
    by_contra hc
    have : n = 0 := by omega
    rw [this] at h
    omega
  constructor
  · intro hmem
    unfold solveRecords at hmem
    rcases List.mem_flatMap.mp hmem with ⟨start, hstartmem, hrec⟩
    have hstart : start < n * n := List.mem_range.mp hstartmem
    obtain ⟨hs, rest, hchain, hnoq, ⟨t', hwalk, ht'⟩, hweq⟩ :=
      dfs_sound (cellChars board n) n (n * n) start trie.root [] (1 <<< start) start
        w s hrec
    subst hs
    have hn : 0 < n := hn0 s hstart
    obtain ⟨hchainspec, hbound⟩ := chainFrom_spec n rest (1 <<< s) s hstart hchain
    have hnodup : (s :: rest).Nodup := by
      apply chainFrom_nodup n rest (1 <<< s) s _ hchain
      rw [testBit_one_shiftLeft]
      simp
    have htok : ∀ j ∈ s :: rest,
        (cellChars board n).getD j "" = cellToken board (j / n, j % n) := by
      intro j hj
      exact cellChars_getD_WF hWF (hbound j hj)
    have hweq' : w = String.join ((s :: rest).map (fun j => (cellChars board n).getD j "")) := by
      rw [hweq, List.nil_append]
    refine ⟨hstart, ?_, ?_⟩
    · apply (containsWord_iff _ _).mpr
      refine ⟨t', ?_, ht'⟩
      have hdata : w.data =
          (((s :: rest).map (fun j => ((cellChars board n).getD j "").data)).flatten) := by
        rw [hweq', data_join, List.map_map]
        rfl
      rw [hdata]
      exact hwalk
    · refine ⟨(s :: rest).map (fun i => (i / n, i % n)), ?_, ?_⟩
      · refine ⟨by simp, ?_, ?_, hchainspec, ?_, ?_⟩
        · apply List.Nodup.map_on _ hnodup
          intro x hx y hy hxy
          have hxb := hbound x hx
          have hyb := hbound y hy
          have h1 : x / n = y / n := congrArg Prod.fst hxy
          have h2 : x % n = y % n := congrArg Prod.snd hxy
          have hx' := idx_recompose hxb
          have hy' := idx_recompose hyb
          rw [← hx', ← hy', h1, h2]
        · intro q hq
          rcases List.mem_map.mp hq with ⟨j, hj, rfl⟩
          have hjb := hbound j hj
          exact ⟨Nat.div_lt_of_lt_mul hjb, Nat.mod_lt _ hn⟩
        · intro q hq
          rcases List.mem_map.mp hq with ⟨j, hj, rfl⟩
          rw [← htok j hj]
          exact hnoq j hj
        · rw [List.map_map, hweq']
          congr 1
          apply List.map_congr_left
          intro j hj
          exact (htok j hj).symm
      · rfl
  · rintro ⟨hs, hcontains, p, ⟨hne, hnd, hbnd, hch, hnoq, hjoin⟩, hhead⟩
    have hn : 0 < n := hn0 s hs
    rcases p with _ | ⟨q0, ptail⟩
    · exact absurd rfl hne
    have hq0 : q0 = (s / n, s % n) := Option.some.inj hhead
    have hq0b := hbnd q0 (List.mem_cons_self _ _)
    have hq0idx : q0.1 * n + q0.2 = s := by
      rw [hq0]
      exact idx_recompose hs
    set l := (q0 :: ptail).map (fun q => q.1 * n + q.2) with hl
    have hlcons : l = s :: ptail.map (fun q => q.1 * n + q.2) := by
      rw [hl, List.map_cons, hq0idx]
    have hlnodup : l.Nodup := by
      rw [hl]
      apply List.Nodup.map_on _ hnd
      intro x hx y hy hxy
      have hxb := hbnd x hx
      have hyb := hbnd y hy
      obtain ⟨e1, e2⟩ := grid_index_inj hxb.2 hyb.2 hxy
      exact Prod.ext e1 e2
    have hlbound : ∀ j ∈ l, j < n * n := by
      intro j hj
      rw [hl] at hj
      rcases List.mem_map.mp hj with ⟨q, hq, rfl⟩
      have := hbnd q hq
      exact pair_idx_lt this.1 this.2
    have hltok : ∀ j ∈ l, (cellChars board n).getD j "" = cellToken board (j / n, j % n) :=
      fun j hj => cellChars_getD_WF hWF (hlbound j hj)
    have hltok' : ∀ q ∈ q0 :: ptail,
        (cellChars board n).getD (q.1 * n + q.2) "" = cellToken board q := by
      intro q hq
      have hqb := hbnd q hq
      have hmem : q.1 * n + q.2 ∈ l := by
        rw [hl]
        exact List.mem_map_of_mem _ hq
      rw [hltok _ hmem]
      obtain ⟨e1, e2⟩ := pair_idx_div (n := n) (q := q) hqb.2
      rw [e1, e2]
    have hchainl : List.Chain' (fun a b => b ∈ neighbors n a) l :=
      chain_adj8_to_neighbors n (q0 :: ptail) hbnd hch
    have hchainfrom : chainFrom n (1 <<< s) s (ptail.map (fun q => q.1 * n + q.2)) := by
      apply chain_to_chainFrom
      · intro j hj hmem
        rw [testBit_one_shiftLeft] at hj
        have hjs : s = j := of_decide_eq_true hj
        rw [← hjs] at hmem
        have hx : l.Nodup := hlnodup
        rw [hlcons, List.nodup_cons] at hx
        exact hx.1 hmem
      · rw [← hlcons]
        exact hchainl
      · have hx := hlnodup
        rw [hlcons, List.nodup_cons] at hx
        exact hx.2
    obtain ⟨t', hwk, ht'⟩ := (containsWord_iff _ _).mp hcontains
    have hmapeq : (s :: ptail.map (fun q => q.1 * n + q.2)).map
        (fun j => (cellChars board n).getD j "") = (q0 :: ptail).map (cellToken board) := by
      rw [← hlcons, hl, List.map_map]
      apply List.map_congr_left
      intro q hq
      exact hltok' q hq
    have hwdata : w.data = (((s :: ptail.map (fun q => q.1 * n + q.2)).map
        (fun j => ((cellChars board n).getD j "").data)).flatten) := by
      rw [show ((s :: ptail.map (fun q => q.1 * n + q.2)).map
        (fun j => ((cellChars board n).getD j "").data)) = ((s :: ptail.map
        (fun q => q.1 * n + q.2)).map (fun j => (cellChars board n).getD j "")).map
        String.data from by rw [List.map_map]; rfl]
      rw [hmapeq, ← data_join, hjoin]
    have hlnoq : ∀ j ∈ s :: ptail.map (fun q => q.1 * n + q.2),
        (cellChars board n).getD j "" ≠ "?" := by
      intro j hj
      rw [← hlcons] at hj
      rw [hltok j hj]
      rcases List.mem_map.mp (by rw [hl] at hj; exact hj :
          j ∈ (q0 :: ptail).map (fun q => q.1 * n + q.2)) with ⟨q, hq, rfl⟩
      obtain ⟨e1, e2⟩ := pair_idx_div (n := n) (q := q) (hbnd q hq).2
      rw [e1, e2]
      exact hnoq q hq
    have hlne : ∀ j ∈ s :: ptail.map (fun q => q.1 * n + q.2),
        ((cellChars board n).getD j "").data ≠ [] := by
      intro j hj
      have hjq := hlnoq j hj
      rw [← hlcons] at hj
      have hjb := hlbound j hj
      rw [hltok j hj] at hjq ⊢
      rcases boardWF_token hWF (Nat.div_lt_of_lt_mul hjb)
          (Nat.mod_lt _ hn) with htk | htk
      · exact token_data_ne_nil htk
      · exact absurd htk hjq
    have hlen : (ptail.map (fun q => q.1 * n + q.2)).length < n * n := by
      have h1 : l.length ≤ n * n := nodup_length_le hlnodup hlbound
      rw [hlcons] at h1
      simpa using Nat.lt_of_lt_of_le (by simp) h1
    have hrec := dfs_complete (cellChars board n) n
      (ptail.map (fun q => q.1 * n + q.2)) (n * n) s trie.root [] (1 <<< s) s t'
      hchainfrom hlnoq hlne (by rw [← hwdata]; exact hwk) ht' hlen
    unfold solveRecords
    apply List.mem_flatMap.mpr
    refine ⟨s, List.mem_range.mpr hs, ?_⟩
    have hweq : String.join ([] ++ (s :: ptail.map (fun q => q.1 * n + q.2)).map
        (fun j => (cellChars board n).getD j "")) = w := by
      rw [List.nil_append, hmapeq, hjoin]
    rw [← hweq]
    exact hrec
  
/-! ### Claim C1 -/

/-- **C1.** For every well-formed board, every trie, and `max_results = 0`, the
word list returned by `solve` is duplicate-free and contains exactly the words
stored in the trie that are spellable by a simple path (no repeated cell) over
the 8-direction adjacency graph, where a `"QU"` cell contributes its two
characters atomically through the trie walk and no path ever passes through a
`"?"` cell. -/
theorem C1_solve_exact_word_set (board : List (List String)) (n : Nat) (trie : Trie)
    (hWF : boardWF board n) :
    (solve board n trie 0).1.Nodup ∧
    ∀ w, w ∈ (solve board n trie 0).1 ↔
      (trie.root.containsWord w = true ∧ Spellable board n w) := by
  have hsolve : (solve board n trie 0).1 =
      ((solveRecords board n trie).map Prod.fst).dedup.mergeSort wordLE := by
    unfold solve
    dsimp only
    rw [if_neg (by decide)]
  constructor
  · rw [hsolve]
    exact ((List.mergeSort_perm _ _).nodup_iff).mpr (List.nodup_dedup _)
  · intro w
    rw [hsolve, List.mem_mergeSort, List.mem_dedup, List.mem_map]
    constructor
    · rintro ⟨⟨w', s⟩, hmem, rfl⟩
      obtain ⟨hs, hc, p, hsp, _⟩ := (solveRecords_mem board n trie hWF _ s).mp hmem
      exact ⟨hc, p, hsp⟩
    · rintro ⟨hc, p, hsp⟩
      obtain ⟨hne, hnd, hbnd, hch, hnoq, hjoin⟩ := hsp
      rcases p with _ | ⟨q0, ptail⟩
      · exact absurd rfl hne
      have hq0b := hbnd q0 (List.mem_cons_self _ _)
      have hlt : q0.1 * n + q0.2 < n * n := pair_idx_lt hq0b.1 hq0b.2
      obtain ⟨hd, hm⟩ := pair_idx_div (n := n) (q := q0) hq0b.2
      refine ⟨(w, q0.1 * n + q0.2), ?_, rfl⟩
      apply (solveRecords_mem board n trie hWF w _).mpr
      refine ⟨hlt, hc, q0 :: ptail, ⟨hne, hnd, hbnd, hch, hnoq, hjoin⟩, ?_⟩
      rw [hd, hm]
      rfl

theorem C1_solve_exact_word_set_witness :
    boardWF [["C", "A"], ["T", "?"]] 2 ∧
    ((solve [["C", "A"], ["T", "?"]] 2 (trieOfWords ["CAT", "AT", "TAX"]) 0).1.Nodup ∧
    ∀ w, w ∈ (solve [["C", "A"], ["T", "?"]] 2 (trieOfWords ["CAT", "AT", "TAX"]) 0).1 ↔
      ((trieOfWords ["CAT", "AT", "TAX"]).root.containsWord w = true ∧
        Spellable [["C", "A"], ["T", "?"]] 2 w)) :=
  ⟨by unfold boardWF; decide, C1_solve_exact_word_set [["C", "A"], ["T", "?"]] 2
    (trieOfWords ["CAT", "AT", "TAX"]) (by unfold boardWF; decide)⟩

/-! ### Claim C2 -/

theorem charListLt_irrefl : ∀ a : List Char, charListLt a a = false := by
  intro a
  induction a with
  | nil => rfl
  | cons x xs ih =>
    unfold charListLt
    rw [if_neg (lt_irrefl x), if_pos rfl]
    exact ih

theorem charListLt_trans :
    ∀ a b c : List Char, charListLt a b = true → charListLt b c = true →
      charListLt a c = true := by
  intro a
  induction a with
  | nil =>
    intro b c hab hbc
    cases c with
    | nil =>
      cases b with
      | nil => exact hab
      | cons y ys => exact absurd hbc (by simp [charListLt])
    | cons z zs => rfl
  | cons x xs ih =>
    intro b c hab hbc
    cases b with
    | nil => exact absurd hab (by simp [charListLt])
    | cons y ys =>
      cases c with
      | nil => exact absurd hbc (by simp [charListLt])
      | cons z zs =>
        unfold charListLt at hab hbc ⊢
        rcases lt_trichotomy x y with hxy | hxy | hxy
        · rcases lt_trichotomy y z with hyz | hyz | hyz
          · rw [if_pos (lt_trans hxy hyz)]
          · rw [← hyz]
            rw [if_pos hxy]
          · rw [if_neg (lt_asymm hyz), if_neg (ne_of_gt hyz)] at hbc
            exact absurd hbc (by simp)
        · subst hxy
          rcases lt_trichotomy x z with hyz | hyz | hyz
          · rw [if_pos hyz]
          · subst hyz
            rw [if_neg (lt_irrefl x), if_pos rfl] at hab hbc ⊢
            exact ih ys zs hab hbc
          · rw [if_neg (lt_asymm hyz), if_neg (ne_of_gt hyz)] at hbc
            exact absurd hbc (by simp)
        · rw [if_neg (lt_asymm hxy), if_neg (ne_of_gt hxy)] at hab
          exact absurd hab (by simp)

theorem charListLt_connex :
    ∀ a b : List Char, charListLt a b = false → charListLt b a = false → a = b := by
  intro a
  induction a with
  | nil =>
    intro b hab _
    cases b with
    | nil => rfl
    | cons y ys => exact absurd hab (by simp [charListLt])
  | cons x xs ih =>
    intro b hab hba
    cases b with
    | nil => exact absurd hba (by simp [charListLt])
    | cons y ys =>
      unfold charListLt at hab hba
      rcases lt_trichotomy x y with hxy | hxy | hxy
      · rw [if_pos hxy] at hab
        exact absurd hab (by simp)
      · subst hxy
        rw [if_neg (lt_irrefl x), if_pos rfl] at hab hba
        rw [ih ys hab hba]
      · rw [if_pos hxy] at hba
        exact absurd hba (by simp)

theorem wordLE_trans (a b c : String) :
    wordLE a b = true → wordLE b c = true → wordLE a c = true := by
  unfold wordLE pyStrLE
  simp only [Bool.or_eq_true, Bool.and_eq_true, decide_eq_true_eq, beq_iff_eq,
    Bool.not_eq_true']
  rintro (hab | ⟨hab, hab2⟩) (hbc | ⟨hbc, hbc2⟩)
  · exact Or.inl (lt_trans hbc hab)
  · exact Or.inl (hbc ▸ hab)
  · exact Or.inl (hab ▸ hbc)
  · refine Or.inr ⟨hab.trans hbc, ?_⟩
    cases hca : charListLt c.data a.data with
    | false => rfl
    | true =>
      exfalso
      cases hbc' : charListLt b.data c.data with
      | true =>
        have h2 := charListLt_trans _ _ _ hbc' hca
        exact absurd h2 (by simp [hab2])
      | false =>
        have heq : b.data = c.data := charListLt_connex _ _ hbc' hbc2
        rw [← heq] at hca
        exact absurd hca (by simp [hab2])

theorem wordLE_total (a b : String) : (wordLE a b || wordLE b a) = true := by
  unfold wordLE pyStrLE
  rcases Nat.lt_trichotomy a.length b.length with h | h | h
  · simp [h]
  · cases hab : charListLt a.data b.data with
    | false => simp [h, hab]
    | true =>
      cases hba : charListLt b.data a.data with
      | false => simp [h, hba]
      | true =>
        have h2 := charListLt_trans _ _ _ hab hba
        rw [charListLt_irrefl] at h2
        exact absurd h2 (by simp)
  · simp [h]

/-- **C2.** For every board, trie, and `max_results`, the word list returned by
`solve` is sorted by descending length with ties broken by ascending
lexicographic order; when `max_results > 0` the list equals the untruncated
list cut to its first `max_results` entries (so its length is the minimum of
`max_results` and the total word count), and when `max_results ≤ 0` it equals
the untruncated list. -/
theorem C2_sorted_and_truncation (board : List (List String)) (n : Nat) (trie : Trie)
    (max_results : Int) :
    ((solve board n trie max_results).1.Pairwise
      (fun a b => b.length < a.length ∨ (a.length = b.length ∧ pyStrLE a b = true))) ∧
    (0 < max_results →
      (solve board n trie max_results).1 = (solve board n trie 0).1.take max_results.toNat ∧
      (solve board n trie max_results).1.length =
        min max_results.toNat (solve board n trie 0).1.length) ∧
    (max_results ≤ 0 → (solve board n trie max_results).1 = (solve board n trie 0).1) := by
  have hfull : (solve board n trie 0).1 =
      (((solveRecords board n trie).map Prod.fst).dedup).mergeSort wordLE := by
    unfold solve
    dsimp only
    rw [if_neg (by decide)]
  have hsorted : ((((solveRecords board n trie).map Prod.fst).dedup).mergeSort
      wordLE).Pairwise (fun a b => wordLE a b = true) :=
    List.sorted_mergeSort wordLE_trans wordLE_total _
  have himp : ∀ a b : String, wordLE a b = true →
      b.length < a.length ∨ (a.length = b.length ∧ pyStrLE a b = true) := by
    intro a b h
    unfold wordLE at h
    simp only [Bool.or_eq_true, Bool.and_eq_true, decide_eq_true_eq, beq_iff_eq] at h
    exact h
  refine ⟨?_, ?_, ?_⟩
  · show ((solve board n trie max_results).1.Pairwise _)
    unfold solve
    dsimp only
    cases hpos : decide (max_results > 0) with
    | false =>
      rw [if_neg (of_decide_eq_false hpos)]
      exact hsorted.imp (fun h => himp _ _ h)
    | true =>
      rw [if_pos (of_decide_eq_true hpos)]
      exact List.Pairwise.sublist (List.take_sublist _ _)
        (hsorted.imp (fun h => himp _ _ h))
  · intro hpos
    have heq : (solve board n trie max_results).1 =
        ((((solveRecords board n trie).map Prod.fst).dedup).mergeSort wordLE).take
          max_results.toNat := by
      unfold solve
      dsimp only
      rw [if_pos hpos]
    refine ⟨by rw [heq, hfull], ?_⟩
    rw [heq, hfull, List.length_take]
  · intro hle
    unfold solve
    dsimp only
    rw [if_neg (not_lt.mpr hle), if_neg (by decide)]

unseal List.merge List.mergeSort in
theorem C2_sorted_and_truncation_witness :
    (0 : Int) < 1 ∧
    ((solve [["C", "A"], ["T", "S"]] 2 (trieOfWords ["CAT", "AT", "CATS"]) 1).1.Pairwise
      (fun a b => b.length < a.length ∨ (a.length = b.length ∧ pyStrLE a b = true)) ∧
    ((0 : Int) < 1 →
      (solve [["C", "A"], ["T", "S"]] 2 (trieOfWords ["CAT", "AT", "CATS"]) 1).1 =
        (solve [["C", "A"], ["T", "S"]] 2 (trieOfWords ["CAT", "AT", "CATS"]) 0).1.take
          (Int.toNat 1) ∧
      (solve [["C", "A"], ["T", "S"]] 2 (trieOfWords ["CAT", "AT", "CATS"]) 1).1.length =
        min (Int.toNat 1)
          (solve [["C", "A"], ["T", "S"]] 2 (trieOfWords ["CAT", "AT", "CATS"]) 0).1.length) ∧
    ((1 : Int) ≤ 0 →
      (solve [["C", "A"], ["T", "S"]] 2 (trieOfWords ["CAT", "AT", "CATS"]) 1).1 =
        (solve [["C", "A"], ["T", "S"]] 2 (trieOfWords ["CAT", "AT", "CATS"]) 0).1)) :=
  ⟨by decide, C2_sorted_and_truncation [["C", "A"], ["T", "S"]] 2
    (trieOfWords ["CAT", "AT", "CATS"]) 1⟩

/-! ### Claims C8 and C9: the positions dictionary -/

def optMin (a : Option (Nat × Nat)) (p : Nat × Nat) : Option (Nat × Nat) :=
  match a with
  | none => some p
  | some q => some (if pairLtB p q then p else q)

theorem pairLtB_iff (p q : Nat × Nat) :
    pairLtB p q = true ↔ (p.1 < q.1 ∨ (p.1 = q.1 ∧ p.2 < q.2)) := by
  unfold pairLtB
  simp

theorem pairLtB_irrefl (p : Nat × Nat) : pairLtB p p = false := by
  unfold pairLtB
  simp

theorem pairLtB_asymm {p q : Nat × Nat} (h : pairLtB p q = true) :
    pairLtB q p = false := by
  rw [pairLtB_iff] at h
  unfold pairLtB
  simp only [decide_eq_false_iff_not]
  omega

theorem pairLtB_false_trans {a b c : Nat × Nat} (h1 : pairLtB b a = false)
    (h2 : pairLtB c b = false) : pairLtB c a = false := by
  unfold pairLtB at h1 h2 ⊢
  simp only [decide_eq_false_iff_not] at h1 h2 ⊢
  omega

theorem optMin_le {a : Option (Nat × Nat)} {e m : Nat × Nat}
    (h : optMin a e = some m) :
    pairLtB e m = false ∧ ∀ q0, a = some q0 → pairLtB q0 m = false := by
  cases a with
  | none =>
    unfold optMin at h
    obtain rfl : e = m := Option.some.inj h
    exact ⟨pairLtB_irrefl e, fun q0 hq0 => Option.noConfusion hq0⟩
  | some q0 =>
    replace h : some (if pairLtB e q0 then e else q0) = some m := h
    by_cases hlt : pairLtB e q0 = true
    · rw [if_pos hlt] at h
      obtain rfl : e = m := Option.some.inj h
      refine ⟨pairLtB_irrefl e, ?_⟩
      intro q1 hq1
      obtain rfl : q0 = q1 := Option.some.inj hq1
      exact pairLtB_asymm hlt
    · rw [if_neg hlt] at h
      obtain rfl : q0 = m := Option.some.inj h
      have hlt' : pairLtB e q0 = false := by simpa using hlt
      refine ⟨hlt', ?_⟩
      intro q1 hq1
      obtain rfl : q0 = q1 := Option.some.inj hq1
      exact pairLtB_irrefl _

theorem optMin_mem {a : Option (Nat × Nat)} {e m : Nat × Nat}
    (h : optMin a e = some m) : m = e ∨ a = some m := by
  cases a with
  | none =>
    unfold optMin at h
    exact Or.inl (Option.some.inj h).symm
  | some q0 =>
    replace h : some (if pairLtB e q0 then e else q0) = some m := h
    by_cases hlt : pairLtB e q0 = true
    · rw [if_pos hlt] at h
      exact Or.inl (Option.some.inj h).symm
    · rw [if_neg hlt] at h
      exact Or.inr h

theorem foldl_optMin_none :
    ∀ (l : List (Nat × Nat)) (a : Option (Nat × Nat)),
      l.foldl optMin a = none ↔ a = none ∧ l = [] := by
  intro l
  induction l with
  | nil => intro a; simp
  | cons e rest ih =>
    intro a
    rw [List.foldl_cons]
    rw [ih]
    constructor
    · rintro ⟨h1, _⟩
      cases a with
      | none => exact absurd h1 (by unfold optMin; simp)
      | some q => exact absurd h1 (by unfold optMin; split <;> simp)
    · rintro ⟨_, h2⟩
      exact List.noConfusion h2

theorem foldl_optMin_spec :
    ∀ (l : List (Nat × Nat)) (a : Option (Nat × Nat)) (q : Nat × Nat),
      l.foldl optMin a = some q →
      (∀ e ∈ l, pairLtB e q = false) ∧
      (∀ q0, a = some q0 → pairLtB q0 q = false) ∧
      (q ∈ l ∨ a = some q) := by
  intro l
  induction l with
  | nil =>
    intro a q h
    rw [List.foldl_nil] at h
    refine ⟨by simp, ?_, Or.inr h⟩
    intro q0 hq0
    rw [h] at hq0
    obtain rfl := Option.some.inj hq0
    exact pairLtB_irrefl _
  | cons e rest ih =>
    intro a q h
    rw [List.foldl_cons] at h
    obtain ⟨m, hm⟩ : ∃ m, optMin a e = some m := by
      cases a with
      | none => exact ⟨e, rfl⟩
      | some q0 => exact ⟨if pairLtB e q0 then e else q0, rfl⟩
    rw [hm] at h
    obtain ⟨hrest, hinit, hmem⟩ := ih _ q h
    have hminit : pairLtB m q = false := hinit m rfl
    obtain ⟨hem, haq⟩ := optMin_le hm
    refine ⟨?_, ?_, ?_⟩
    · intro x hx
      rcases List.mem_cons.mp hx with rfl | hx'
      · exact pairLtB_false_trans hminit hem
      · exact hrest x hx'
    · intro q0 hq0
      exact pairLtB_false_trans hminit (haq q0 hq0)
    · rcases hmem with hq | hq
      · exact Or.inl (List.mem_cons_of_mem _ hq)
      · obtain rfl : m = q := Option.some.inj hq
        rcases optMin_mem hm with h1 | h1
        · exact Or.inl (h1 ▸ List.mem_cons_self _ _)
        · exact Or.inr h1

def wsStep (n : Nat) (d : String → Option (Nat × Nat)) (rec1 : String × Nat) :
    String → Option (Nat × Nat) :=
  let p := (rec1.2 / n, rec1.2 % n)
  fun w => if w = rec1.1 then
      match d rec1.1 with
      | none => some p
      | some q => some (if pairLtB p q then p else q)
    else d w

theorem wsStep_eq (n : Nat) (d : String → Option (Nat × Nat)) (r : String × Nat)
    (w : String) :
    wsStep n d r w = if w = r.1 then optMin (d r.1) (r.2 / n, r.2 % n) else d w := by
  unfold wsStep
  by_cases hw : w = r.1
  · rw [if_pos hw, if_pos hw]
    cases d r.1 with
    | none => rfl
    | some q => rfl
  · rw [if_neg hw, if_neg hw]

theorem foldl_wsStep (n : Nat) :
    ∀ (records : List (String × Nat)) (d : String → Option (Nat × Nat)) (w : String),
      (records.foldl (wsStep n) d) w =
      ((records.filter (fun r => decide (r.1 = w))).map
        (fun r => (r.2 / n, r.2 % n))).foldl optMin (d w) := by
  intro records
  induction records with
  | nil => intro d w; rfl
  | cons r rs ih =>
    intro d w
    rw [List.foldl_cons, ih]
    by_cases hw : w = r.1
    · have hfil : (r :: rs).filter (fun x => decide (x.1 = w)) =
          r :: rs.filter (fun x => decide (x.1 = w)) := by
        rw [List.filter_cons, if_pos (by simp [hw])]
      rw [hfil, List.map_cons, List.foldl_cons, wsStep_eq, if_pos hw, hw]
    · have hfil : (r :: rs).filter (fun x => decide (x.1 = w)) =
          rs.filter (fun x => decide (x.1 = w)) := by
        rw [List.filter_cons,
          if_neg (by simp only [decide_eq_true_eq]; exact fun h => hw h.symm)]
      rw [hfil, wsStep_eq, if_neg hw]

theorem wordStarts_spec (n : Nat) (records : List (String × Nat)) (w : String) :
    wordStarts n records w =
      ((records.filter (fun r => decide (r.1 = w))).map
        (fun r => (r.2 / n, r.2 % n))).foldl optMin none := by
  have h : wordStarts n records = records.foldl (wsStep n) (fun _ => none) := rfl
  rw [h, foldl_wsStep]

theorem solve_snd (board : List (List String)) (n : Nat) (trie : Trie)
    (max_results : Int) :
    (solve board n trie max_results).2 = wordStarts n (solveRecords board n trie) := rfl

theorem mem_solve_full (board : List (List String)) (n : Nat) (trie : Trie) (w : String) :
    w ∈ (solve board n trie 0).1 ↔ ∃ s, (w, s) ∈ solveRecords board n trie := by
  have hfull : (solve board n trie 0).1 =
      (((solveRecords board n trie).map Prod.fst).dedup).mergeSort wordLE := by
    unfold solve
    dsimp only
    rw [if_neg (by decide)]
  rw [hfull, List.mem_mergeSort, List.mem_dedup, List.mem_map]
  constructor
  · rintro ⟨⟨w', s⟩, hmem, rfl⟩
    exact ⟨s, hmem⟩
  · rintro ⟨s, hmem⟩
    exact ⟨(w, s), hmem, rfl⟩

/-- **C9.** The positions mapping returned by `solve` does not depend on
`max_results`, and its defined keys are exactly the full set of found words:
even when the returned word list is truncated, every found word (including one
absent from the truncated list) still has a position entry. -/
theorem C9_positions_keys_complete (board : List (List String)) (n : Nat)
    (trie : Trie) (max_results : Int) :
    (solve board n trie max_results).2 = (solve board n trie 0).2 ∧
    ∀ w, ((solve board n trie max_results).2 w).isSome ↔ w ∈ (solve board n trie 0).1 := by
  refine ⟨rfl, ?_⟩
  intro w
  rw [solve_snd, wordStarts_spec, mem_solve_full]
  constructor
  · intro hsome
    cases hfold : (((solveRecords board n trie).filter
        (fun r => decide (r.1 = w))).map (fun r => (r.2 / n, r.2 % n))).foldl
        optMin none with
    | none => rw [hfold] at hsome; exact absurd hsome (by simp)
    | some q =>
      obtain ⟨_, _, hmem⟩ := foldl_optMin_spec _ _ _ hfold
      rcases hmem with hq | hq
      · rcases List.mem_map.mp hq with ⟨r, hr, _⟩
        obtain ⟨hr1, hr2⟩ := List.mem_filter.mp hr
        have hrw : (w, r.2) = r := Prod.ext (of_decide_eq_true hr2).symm rfl
        exact ⟨r.2, hrw ▸ hr1⟩
      · exact absurd hq (by simp)
  · rintro ⟨s, hmem⟩
    have hmem2 : (s / n, s % n) ∈ (((solveRecords board n trie).filter
        (fun r => decide (r.1 = w))).map (fun r => (r.2 / n, r.2 % n))) :=
      List.mem_map_of_mem _ (List.mem_filter.mpr ⟨hmem, by simp⟩)
    cases hfold : (((solveRecords board n trie).filter
        (fun r => decide (r.1 = w))).map (fun r => (r.2 / n, r.2 % n))).foldl
        optMin none with
    | none =>
      rw [foldl_optMin_none] at hfold
      rw [hfold.2] at hmem2
      exact absurd hmem2 (by simp)
    | some q => simp

/-- **C8.** For every well-formed board and trie, whenever the positions
mapping returned by `solve` assigns a start cell to a word, that cell is the
head of some simple path spelling the word, and it is lexicographically
(row-major) no greater than the head of every simple path spelling the word. -/
theorem C8_positions_lex_smallest_start (board : List (List String)) (n : Nat)
    (trie : Trie) (max_results : Int) (hWF : boardWF board n) :
    ∀ w q, (solve board n trie max_results).2 w = some q →
      (∃ p, SpellPath board n w p ∧ p.head? = some q) ∧
      (∀ p q', SpellPath board n w p → p.head? = some q' → pairLtB q' q = false) := by
  intro w q hq
  rw [solve_snd, wordStarts_spec] at hq
  obtain ⟨hall, _, hmem⟩ := foldl_optMin_spec _ _ _ hq
  have hcp : trie.root.containsWord w = true ∧
      ∃ p0, SpellPath board n w p0 ∧ p0.head? = some q := by
    rcases hmem with hqm | hqm
    · rcases List.mem_map.mp hqm with ⟨r, hr, hrq⟩
      obtain ⟨hr1, hr2⟩ := List.mem_filter.mp hr
      have hrw : (w, r.2) = r := Prod.ext (of_decide_eq_true hr2).symm rfl
      obtain ⟨_, hc, p, hsp, hhead⟩ :=
        (solveRecords_mem board n trie hWF w r.2).mp (hrw ▸ hr1)
      exact ⟨hc, p, hsp, by rw [hhead, hrq]⟩
    · exact absurd hqm (by simp)
  refine ⟨hcp.2, ?_⟩
  intro p q' hsp hhead
  obtain ⟨hne, hnd, hbnd, hch, hnoq, hjoin⟩ := hsp
  rcases p with _ | ⟨q0, ptail⟩
  · exact absurd rfl hne
  obtain rfl : q0 = q' := Option.some.inj hhead
  have hq0b := hbnd q0 (List.mem_cons_self _ _)
  have hlt : q0.1 * n + q0.2 < n * n := pair_idx_lt hq0b.1 hq0b.2
  obtain ⟨hd, hm⟩ := pair_idx_div (n := n) (q := q0) hq0b.2
  have hrec : (w, q0.1 * n + q0.2) ∈ solveRecords board n trie := by
    apply (solveRecords_mem board n trie hWF w _).mpr
    refine ⟨hlt, hcp.1, q0 :: ptail, ⟨hne, hnd, hbnd, hch, hnoq, hjoin⟩, ?_⟩
    rw [hd, hm]
    rfl
  have hmem3 : ((q0.1 * n + q0.2) / n, (q0.1 * n + q0.2) % n) ∈
      (((solveRecords board n trie).filter (fun r => decide (r.1 = w))).map
        (fun r => (r.2 / n, r.2 % n))) :=
    List.mem_map_of_mem _ (List.mem_filter.mpr ⟨hrec, by simp⟩)
  have hfin := hall _ hmem3
  rw [hd, hm] at hfin
  exact hfin

theorem C8_positions_lex_smallest_start_witness :
    boardWF [["A", "B"], ["A", "C"]] 2 ∧
    (∀ w q, (solve [["A", "B"], ["A", "C"]] 2 (trieOfWords ["AB"]) 0).2 w = some q →
      (∃ p, SpellPath [["A", "B"], ["A", "C"]] 2 w p ∧ p.head? = some q) ∧
      (∀ p q', SpellPath [["A", "B"], ["A", "C"]] 2 w p → p.head? = some q' →
        pairLtB q' q = false)) :=
  ⟨by unfold boardWF; decide, C8_positions_lex_smallest_start [["A", "B"], ["A", "C"]] 2
    (trieOfWords ["AB"]) 0 (by unfold boardWF; decide)⟩

